import Mathlib

/-!
A verification development for the DirHash program (src/DirHash.cpp).

The C++ source is shallowly embedded: wide characters (`wchar_t`) and bytes
(`unsigned char`) are modelled as `Nat`, NUL-terminated wide strings as
`List Nat` (the terminator is not stored; where the source scans past the
terminator, out-of-range reads yield the NUL value 0 via `List.getD`),
and `ByteArray` (`std::vector<unsigned char>`) as `List Nat`.

The program runs without calling `setlocale`, so the CRT case folding used by
`_wcsicmp` is the C locale's: only ASCII `A`..`Z` are folded.
-/

namespace DirHash

/-- Model of the C locale `towlower` used by `_wcsicmp`: folds ASCII
`A`..`Z` (65..90) to `a`..`z`, leaves every other code unit unchanged. -/
def towlower (c : Nat) : Nat := if 65 ≤ c ∧ c ≤ 90 then c + 32 else c

/-- Model of the CRT `_wcsicmp`: compares two NUL-terminated wide strings
case-insensitively, returning the difference of the first differing folded
code units (a shorter string is compared through its terminator, folded to 0).
Only the sign of the result is ever used by the program. -/
def wcsicmp : List Nat → List Nat → Int
  | [], [] => 0
  | [], b :: _ => -(towlower b : Int)
  | a :: _, [] => (towlower a : Int)
  | a :: as, b :: bs =>
    if towlower a ≠ towlower b then (towlower a : Int) - (towlower b : Int)
    else wcsicmp as bs

/-- Model of `compare_nocase` (DirHash.cpp:165): the strict comparator used
to sort directory contents. -/
def compare_nocase (first second : List Nat) : Bool := wcsicmp first second < 0

theorem towlower_eq_zero {c : Nat} (h : towlower c = 0) : c = 0 := by
  unfold towlower at h
  split at h <;> omega

theorem wcsicmp_neg (a b : List Nat) : wcsicmp a b = -(wcsicmp b a) := by
  induction a generalizing b with
  | nil =>
    cases b <;> simp [wcsicmp]
  | cons x xs ih =>
    cases b with
    | nil => simp [wcsicmp]
    | cons y ys =>
      by_cases h : towlower x = towlower y
      · simp [wcsicmp, h, ih]
      · have h2 : towlower y ≠ towlower x := fun hh => h hh.symm
        simp only [wcsicmp, if_pos h, if_pos h2]
        omega

/-- Transitivity of the case-insensitive comparison on NUL-free strings
(a wide string cannot contain its own terminator). -/
theorem wcsicmp_trans_le {a b c : List Nat} (ha : 0 ∉ a) (hb : 0 ∉ b) (hc : 0 ∉ c)
    (h1 : wcsicmp a b ≤ 0) (h2 : wcsicmp b c ≤ 0) : wcsicmp a c ≤ 0 := by
  induction a generalizing b c with
  | nil =>
    cases c with
    | nil => simp [wcsicmp]
    | cons z zs =>
      simp only [wcsicmp]
      omega
  | cons x xs ih =>
    cases b with
    | nil =>
      exfalso
      simp only [wcsicmp] at h1
      have hx : towlower x = 0 := by omega
      exact ha (by simp [towlower_eq_zero hx])
    | cons y ys =>
      cases c with
      | nil =>
        exfalso
        simp only [wcsicmp] at h2
        have hy : towlower y = 0 := by omega
        exact hb (by simp [towlower_eq_zero hy])
      | cons z zs =>
        simp only [wcsicmp] at h1 h2 ⊢
        by_cases hxy : towlower x = towlower y
        · by_cases hyz : towlower y = towlower z
          · have hxz : towlower x = towlower z := hxy.trans hyz
            simp only [hxz, ne_eq, not_true_eq_false, if_false] at *
            simp only [hxy, ne_eq, not_true_eq_false, if_false] at h1
            simp only [hyz, ne_eq, not_true_eq_false, if_false] at h2
            exact ih (fun h => ha (List.mem_cons_of_mem _ h))
              (fun h => hb (List.mem_cons_of_mem _ h))
              (fun h => hc (List.mem_cons_of_mem _ h)) h1 h2
          · simp only [ne_eq, hyz, not_false_eq_true, if_true] at h2
            have hlt : towlower y < towlower z := by omega
            have hxz : towlower x ≠ towlower z := by omega
            simp only [ne_eq, hxz, not_false_eq_true, if_true]
            omega
        · simp only [ne_eq, hxy, not_false_eq_true, if_true] at h1
          have hlt : towlower x < towlower y := by omega
          by_cases hyz : towlower y = towlower z
          · have hxz : towlower x ≠ towlower z := by omega
            simp only [ne_eq, hxz, not_false_eq_true, if_true]
            omega
          · simp only [ne_eq, hyz, not_false_eq_true, if_true] at h2
            have hxz : towlower x ≠ towlower z := by omega
            simp only [ne_eq, hxz, not_false_eq_true, if_true]
            omega

/-- Prepending a common prefix does not change the case-insensitive
comparison of two strings. -/
theorem wcsicmp_append_left (p a b : List Nat) :
    wcsicmp (p ++ a) (p ++ b) = wcsicmp a b := by
  induction p with
  | nil => rfl
  | cons c cs ih => simp [wcsicmp, ih]

/-- `towlower` fixes the backslash (92): nothing folds to it and it folds
to itself. -/
theorem towlower_eq_backslash {c : Nat} (h : towlower c = 92) : c = 92 := by
  unfold towlower at h
  split at h <;> omega

/-!
Hex encoding and decoding (DirHash.cpp:170-248).
-/

/-- Model of `TCHAR ToHex(unsigned char b)` (DirHash.cpp:170): encodes one
nibble value; the lowercase flag is the global `g_bLowerCase`, passed here
as a parameter. Values above 15 (impossible for a nibble) yield `x`/`X`. -/
def ToHexNibble (lower : Bool) (b : Nat) : Nat :=
  if b ≤ 9 then 48 + b
  else if 10 ≤ b ∧ b ≤ 15 then (if lower then 97 else 65) + b - 10
  else if lower then 120 else 88

/-- Model of `void ToHex(const ByteArray&, LPTSTR)` (DirHash.cpp:192):
renders each byte as two hex digits (`b >> 4` is `b / 2^4`, `b & 0x0F` is
`b % 2^4` for byte values). -/
def ToHex (lower : Bool) : List Nat → List Nat
  | [] => []
  | b :: rest => ToHexNibble lower (b >>> 4) :: ToHexNibble lower (b &&& 15) :: ToHex lower rest

/-- Model of `bool FromHex(TCHAR c, unsigned char& b)` (DirHash.cpp:204):
decodes one hex digit, `none` for characters outside `[0-9a-fA-F]`. -/
def FromHexChar (c : Nat) : Option Nat :=
  if 48 ≤ c ∧ c ≤ 57 then some (c - 48)
  else if 97 ≤ c ∧ c ≤ 102 then some (10 + (c - 97))
  else if 65 ≤ c ∧ c ≤ 70 then some (10 + (c - 65))
  else none

/-- The pair-decoding loop inside `FromHex(const TCHAR*, ByteArray&)`
(DirHash.cpp:226-236): consumes the string two characters at a time; any
undecodable character aborts (the caller then clears the buffer). -/
def FromHexPairs : List Nat → Option (List Nat)
  | [] => some []
  | [_] => none
  | c1 :: c2 :: rest =>
    match FromHexChar c1, FromHexChar c2 with
    | some b1, some b2 => (FromHexPairs rest).map (fun bs => (b1 * 16 + b2) :: bs)
    | _, _ => none

/-- Model of `bool FromHex(const TCHAR* szHex, ByteArray& buffer)`
(DirHash.cpp:217): the returned pair is (return value, final buffer
contents); on any failure the buffer ends up empty. -/
def FromHex (s : List Nat) : Bool × List Nat :=
  if s.length % 2 = 0 then
    match FromHexPairs s with
    | some bs => (true, bs)
    | none => (false, [])
  else (false, [])

set_option maxRecDepth 4000 in
theorem nibble_roundtrip :
    ∀ b : Nat, b < 256 → ∀ lower : Bool,
      FromHexChar (ToHexNibble lower (b >>> 4)) = some (b >>> 4)
      ∧ FromHexChar (ToHexNibble lower (b &&& 15)) = some (b &&& 15)
      ∧ (b >>> 4) * 16 + (b &&& 15) = b := by
  decide

theorem FromHexPairs_ToHex (lower : Bool) :
    ∀ data : List Nat, (∀ b ∈ data, b < 256) →
      FromHexPairs (ToHex lower data) = some data := by
  intro data
  induction data with
  | nil => intro _; rfl
  | cons b rest ih =>
    intro h
    have hb := nibble_roundtrip b (h b (List.mem_cons_self _ _)) lower
    simp only [ToHex, FromHexPairs, hb.1, hb.2.1, ih (fun x hx => h x (List.mem_cons_of_mem _ hx)),
      hb.2.2]
    rfl

theorem ToHex_length (lower : Bool) : ∀ data : List Nat, (ToHex lower data).length = 2 * data.length
  | [] => rfl
  | _ :: rest => by simp [ToHex, ToHex_length lower rest]; omega

theorem FromHexPairs_eq_none :
    ∀ s : List Nat, (∃ c ∈ s, FromHexChar c = none) → FromHexPairs s = none
  | [], h => by simp at h
  | [_], _ => rfl
  | c1 :: c2 :: rest, h => by
    obtain ⟨c, hc, hnone⟩ := h
    simp only [FromHexPairs]
    rcases List.mem_cons.1 hc with h1 | hc2
    · subst h1; simp [hnone]
    · rcases List.mem_cons.1 hc2 with h2 | hrest
      · subst h2
        cases hfc : FromHexChar c1 <;> simp [hnone]
      · have := FromHexPairs_eq_none rest ⟨c, hrest, hnone⟩
        cases hfc1 : FromHexChar c1 <;> cases hfc2 : FromHexChar c2 <;> simp [this]

/-- C10: hex encoding and decoding round-trip; `FromHex` fails with an
empty output on every odd-length string and on every string containing a
character outside `[0-9a-fA-F]`. -/
theorem hex_roundtrip_and_rejection :
    (∀ (lower : Bool) (data : List Nat), (∀ b ∈ data, b < 256) →
        FromHex (ToHex lower data) = (true, data))
    ∧ (∀ s : List Nat,
        (s.length % 2 = 1 ∨ ∃ c ∈ s, FromHexChar c = none) → FromHex s = (false, [])) := by
  constructor
  · intro lower data h
    unfold FromHex
    rw [ToHex_length]
    simp only [Nat.mul_mod_right, if_true, FromHexPairs_ToHex lower data h]
  · intro s h
    rcases h with hodd | hbad
    · unfold FromHex
      rw [if_neg (by omega)]
    · unfold FromHex
      split
      · rw [FromHexPairs_eq_none s hbad]
      · rfl

/-- Witness for C10 at concrete inputs: the byte `0xAB` round-trips in
both casings, and both an odd-length string and a string containing `g`
are rejected with an empty buffer. -/
theorem hex_roundtrip_and_rejection_witness :
    FromHex (ToHex true [171]) = (true, [171])
    ∧ FromHex (ToHex false [0, 255]) = (true, [0, 255])
    ∧ FromHex [48] = (false, [])
    ∧ FromHex [48, 103] = (false, []) :=
  ⟨hex_roundtrip_and_rejection.1 true [171] (by decide),
   hex_roundtrip_and_rejection.1 false [0, 255] (by decide),
   hex_roundtrip_and_rejection.2 [48] (by decide),
   hex_roundtrip_and_rejection.2 [48, 103] (by decide)⟩

/-!
The hash engine façade (DirHash.cpp:711-1164).

The individual hash primitives (CNG, BLAKE2, BLAKE3, Streebog) are external
to the repository; the spec (section 1) treats them as opaque behind the
`HashEngine` contract. Accordingly an engine's intermediate state is
modelled as the sequence of bytes absorbed so far (every listed primitive's
state, and its finalised digest, is a function of exactly that sequence),
and finalisation is modelled as the idealised collision-free digest: the
algorithm identifier paired with the absorbed sequence.

Modelled from the spec: the build configuration defining `USE_STREEBOG` is
not under src/ (only the `#ifdef` guards are); the spec's closed algorithm
set includes `Streebog`, so the model takes the macro as defined and
`GetHash` as succeeding on `Streebog`.
-/

/-- The closed set of algorithms (glossary of the spec; `GetSupportedHashIds`,
DirHash.cpp:1083). -/
inductive HashAlgo where
  | MD5 | SHA1 | SHA256 | SHA384 | SHA512 | Blake2s | Blake2b | Blake3 | Streebog
deriving DecidableEq

/-- `GetHashSize` of each engine class (DirHash.cpp:754, 771, 789, 885,
901, 917, 933, 949, 966): BLAKE2s and BLAKE3 produce 32 bytes, BLAKE2b 64. -/
def HashAlgo.hashSize : HashAlgo → Nat
  | .MD5 => 16
  | .SHA1 => 20
  | .SHA256 => 32
  | .SHA384 => 48
  | .SHA512 => 64
  | .Blake2s => 32
  | .Blake2b => 64
  | .Blake3 => 32
  | .Streebog => 64

/-- `GetID` of each engine class, as a wide string (code units). -/
def HashAlgo.idStr : HashAlgo → List Nat
  | .MD5 => [77, 68, 53]
  | .SHA1 => [83, 72, 65, 49]
  | .SHA256 => [83, 72, 65, 50, 53, 54]
  | .SHA384 => [83, 72, 65, 51, 56, 52]
  | .SHA512 => [83, 72, 65, 53, 49, 50]
  | .Blake2s => [66, 108, 97, 107, 101, 50, 115]
  | .Blake2b => [66, 108, 97, 107, 101, 50, 98]
  | .Blake3 => [66, 108, 97, 107, 101, 51]
  | .Streebog => [83, 116, 114, 101, 101, 98, 111, 103]

/-- A hash engine: its algorithm and its intermediate state, the latter
modelled as the byte sequence absorbed so far (empty right after the
constructor's `Init`). -/
structure HashEngine where
  algo : HashAlgo
  absorbed : List Nat
deriving DecidableEq

/-- Model of `Hash::Update` (via each primitive): absorbs bytes. -/
def HashEngine.update (e : HashEngine) (data : List Nat) : HashEngine :=
  { e with absorbed := e.absorbed ++ data }

/-- Model of `Hash::Final`: the idealised digest, a collision-free function
of the algorithm and the absorbed byte sequence (the primitives themselves
are out of scope, spec section 1). -/
def HashEngine.final (e : HashEngine) : HashAlgo × List Nat :=
  (e.algo, e.absorbed)

/-- Model of `Hash::IsHashId` (DirHash.cpp:970): case-insensitive match
against the nine identifiers, in source order. -/
def IsHashId (s : List Nat) : Bool :=
  decide (wcsicmp s HashAlgo.SHA1.idStr = 0)
  || decide (wcsicmp s HashAlgo.SHA256.idStr = 0)
  || decide (wcsicmp s HashAlgo.SHA384.idStr = 0)
  || decide (wcsicmp s HashAlgo.SHA512.idStr = 0)
  || decide (wcsicmp s HashAlgo.MD5.idStr = 0)
  || decide (wcsicmp s HashAlgo.Streebog.idStr = 0)
  || decide (wcsicmp s HashAlgo.Blake2s.idStr = 0)
  || decide (wcsicmp s HashAlgo.Blake2b.idStr = 0)
  || decide (wcsicmp s HashAlgo.Blake3.idStr = 0)

/-- Model of `Hash::IsHashSize` (DirHash.cpp:1099). -/
def IsHashSize (n : Nat) : Bool :=
  n = 16 || n = 20 || n = 32 || n = 48 || n = 64

/-- Model of `Hash::GetHash` (DirHash.cpp:1114): returns a freshly
constructed engine (each constructor calls `Init`, so the absorbed
sequence is empty); identifiers are matched case-insensitively in source
order. The NULL-argument special case cannot arise in the model. -/
def GetHash (s : List Nat) : Option HashEngine :=
  if wcsicmp s HashAlgo.SHA1.idStr = 0 then some ⟨.SHA1, []⟩
  else if wcsicmp s HashAlgo.SHA256.idStr = 0 then some ⟨.SHA256, []⟩
  else if wcsicmp s HashAlgo.SHA384.idStr = 0 then some ⟨.SHA384, []⟩
  else if wcsicmp s HashAlgo.SHA512.idStr = 0 then some ⟨.SHA512, []⟩
  else if wcsicmp s HashAlgo.MD5.idStr = 0 then some ⟨.MD5, []⟩
  else if wcsicmp s HashAlgo.Blake2s.idStr = 0 then some ⟨.Blake2s, []⟩
  else if wcsicmp s HashAlgo.Blake2b.idStr = 0 then some ⟨.Blake2b, []⟩
  else if wcsicmp s HashAlgo.Blake3.idStr = 0 then some ⟨.Blake3, []⟩
  else if wcsicmp s HashAlgo.Streebog.idStr = 0 then some ⟨.Streebog, []⟩
  else none

/-- Model of `Hash::Clone` (DirHash.cpp:721): `return GetHash(GetID());` —
the one implementation, no subclass overrides it. -/
def HashEngine.Clone (e : HashEngine) : Option HashEngine :=
  GetHash e.algo.idStr

theorem GetHash_idStr : ∀ a : HashAlgo, GetHash a.idStr = some ⟨a, []⟩ := by
  intro a
  cases a <;> rfl

/-- The comma-splitting performed by the scanning loops of
`Hash::IsHashIdCombination` and `Hash::GetHashes` (DirHash.cpp:1004-1025,
1047-1077): the loop examines exactly the comma-separated segments of the
string in order, with a trailing comma producing a trailing empty segment
(which the loops treat as the end-comma error). -/
def splitSegs (s : List Nat) : List (List Nat) :=
  match s with
  | [] => [[]]
  | c :: rest =>
    if c = 44 then [] :: splitSegs rest
    else
      match splitSegs rest with
      | seg :: segs => (c :: seg) :: segs
      | [] => [[c]]

/-- The segment loop of `Hash::GetHashes` (DirHash.cpp:1047-1077): for each
segment, if it is a known identifier the freshly constructed engine is
pushed (when construction succeeds); otherwise the whole result is cleared
(`none` here). -/
def GetHashesSegs : List (List Nat) → Option (List HashEngine)
  | [] => some []
  | seg :: rest =>
    if IsHashId seg then
      (GetHashesSegs rest).map (fun hs =>
        match GetHash seg with
        | some h => h :: hs
        | none => hs)
    else none

/-- Model of `Hash::GetHashes` (DirHash.cpp:1034): parses the
comma-delimited specifier; any invalid segment (including the empty
segment produced by a leading, trailing or doubled comma, and by the empty
string) yields the empty vector. -/
def GetHashes (s : List Nat) : List HashEngine :=
  match GetHashesSegs (splitSegs s) with
  | some hs => hs
  | none => []

theorem splitSegs_ne_nil (s : List Nat) : splitSegs s ≠ [] := by
  match s with
  | [] => simp [splitSegs]
  | c :: rest =>
    simp only [splitSegs]
    split
    · simp
    · have := splitSegs_ne_nil rest
      match h : splitSegs rest with
      | [] => exact absurd h this
      | seg :: segs => simp

theorem IsHashId_nil : IsHashId [] = false := by decide

theorem GetHash_isSome_of_IsHashId {s : List Nat} (h : IsHashId s = true) :
    (GetHash s).isSome = true := by
  unfold IsHashId at h
  unfold GetHash
  simp only [Bool.or_eq_true, decide_eq_true_eq] at h
  rcases h with ((((((((h | h) | h) | h) | h) | h) | h) | h) | h) <;>
    simp only [h, eq_self_iff_true, if_true] <;> (repeat' split) <;> rfl

theorem IsHashId_ne_nil {s : List Nat} (h : IsHashId s = true) : s ≠ [] := by
  intro hs
  subst hs
  exact absurd h (by decide)

/-- C6: parsing a comma-delimited algorithm specifier succeeds (a
non-empty engine vector) exactly when every comma-separated segment is a
non-empty known identifier, and in that case it produces exactly the
engine of each segment, one per identifier, in order. -/
theorem algo_spec_parsing (s : List Nat) :
    (GetHashes s ≠ [] ↔ ∀ seg ∈ splitSegs s, seg ≠ [] ∧ IsHashId seg = true)
    ∧ ((∀ seg ∈ splitSegs s, IsHashId seg = true) →
        GetHashes s = (splitSegs s).filterMap GetHash
        ∧ ((splitSegs s).filterMap GetHash).length = (splitSegs s).length) := by
  have key : ∀ segs : List (List Nat),
      (∀ seg ∈ segs, IsHashId seg = true) →
        GetHashesSegs segs = some (segs.filterMap GetHash)
        ∧ (segs.filterMap GetHash).length = segs.length := by
    intro segs
    induction segs with
    | nil => intro _; exact ⟨rfl, rfl⟩
    | cons seg rest ih =>
      intro h
      have hseg := h seg (List.mem_cons_self _ _)
      have hrest := ih (fun x hx => h x (List.mem_cons_of_mem _ hx))
      have hsome := GetHash_isSome_of_IsHashId hseg
      obtain ⟨e, he⟩ := Option.isSome_iff_exists.1 hsome
      constructor
      · simp only [GetHashesSegs, hseg, if_true, hrest.1, List.filterMap_cons, he]
        rfl
      · simp only [List.filterMap_cons, he, List.length_cons, hrest.2]
  have keyFail : ∀ segs : List (List Nat), (∃ seg ∈ segs, IsHashId seg = false) →
      GetHashesSegs segs = none := by
    intro segs
    induction segs with
    | nil => intro h; simp at h
    | cons seg rest ih =>
      intro ⟨x, hx, hbad⟩
      rcases List.mem_cons.1 hx with h1 | h2
      · subst h1
        simp [GetHashesSegs, hbad]
      · simp only [GetHashesSegs]
        split
        · rw [ih ⟨x, h2, hbad⟩]
          rfl
        · rfl
  constructor
  · constructor
    · intro hne seg hseg
      by_cases hid : IsHashId seg = true
      · exact ⟨IsHashId_ne_nil hid, hid⟩
      · exfalso
        apply hne
        unfold GetHashes
        rw [keyFail (splitSegs s) ⟨seg, hseg, by simpa using hid⟩]
    · intro hall
      have hall2 : ∀ seg ∈ splitSegs s, IsHashId seg = true := fun seg h => (hall seg h).2
      obtain ⟨heq, hlen⟩ := key (splitSegs s) hall2
      intro hnil
      unfold GetHashes at hnil
      rw [heq] at hnil
      have h3 : (splitSegs s).filterMap GetHash = [] := hnil
      have h4 : (splitSegs s).length = 0 := by rw [← hlen, h3]; rfl
      exact splitSegs_ne_nil s (List.length_eq_zero.1 h4)
  · intro hall
    obtain ⟨heq, hlen⟩ := key (splitSegs s) hall
    refine ⟨?_, hlen⟩
    unfold GetHashes
    rw [heq]

/-- Witness for C6 at a concrete input: on the string `SHA1,MD5` parsing
succeeds with one engine per identifier in order, while on `SHA1,`
(trailing comma) every-segment-validity fails and the parse result is
empty. -/
theorem algo_spec_parsing_witness :
    (GetHashes [83, 72, 65, 49, 44, 77, 68, 53] ≠ []
      ∧ GetHashes [83, 72, 65, 49, 44, 77, 68, 53]
          = (splitSegs [83, 72, 65, 49, 44, 77, 68, 53]).filterMap GetHash)
    ∧ GetHashes [83, 72, 65, 49, 44] = [] := by
  refine ⟨⟨(algo_spec_parsing [83, 72, 65, 49, 44, 77, 68, 53]).1.2 (by decide),
    ((algo_spec_parsing [83, 72, 65, 49, 44, 77, 68, 53]).2 (by decide)).1⟩, ?_⟩
  by_contra hne
  have := ((algo_spec_parsing [83, 72, 65, 49, 44]).1.1 hne) [] (by decide)
  exact this.1 rfl

/-- C2 counterexample: `Hash::Clone` does not reproduce the intermediate
state. For the engine that has absorbed the single byte 0 and `B = []`,
finalising the clone after feeding `B` differs from finalising the source
after feeding `B` (and the clone's state differs from the source's). -/
theorem clone_loses_intermediate_state :
    (HashEngine.Clone ⟨HashAlgo.SHA1, [0]⟩).map (fun c => (c.update []).final)
      ≠ some ((HashEngine.update ⟨HashAlgo.SHA1, [0]⟩ []).final)
    ∧ HashEngine.Clone ⟨HashAlgo.SHA1, [0]⟩ ≠ some ⟨HashAlgo.SHA1, [0]⟩ := by
  decide

/-- C2 amended: `Clone` produces a freshly initialised engine of the same
algorithm; it is in the same intermediate state as the source exactly when
the source has absorbed no input yet — which is the state of the engines
`CloneHashes` (DirHash.cpp:1158) duplicates per file in sum mode without
name hashing — and then finalising the clone after feeding bytes `B`
agrees with finalising the source after feeding `B`. -/
theorem clone_agrees_on_fresh_engines (e : HashEngine) (B : List Nat)
    (h : e.absorbed = []) :
    e.Clone = some e
    ∧ ∀ c, e.Clone = some c → (c.update B).final = (e.update B).final := by
  have hc : e.Clone = some ⟨e.algo, []⟩ := GetHash_idStr e.algo
  have he : e = ⟨e.algo, []⟩ := by
    cases e
    simp_all
  constructor
  · rw [hc, ← he]
  · intro c hcc
    rw [hc] at hcc
    cases hcc
    rw [← he]

/-- Witness for C2's amended theorem at a concrete input: a fresh SHA256
engine and `B = [1, 2]`. -/
theorem clone_agrees_on_fresh_engines_witness :
    HashEngine.Clone ⟨HashAlgo.SHA256, []⟩ = some ⟨HashAlgo.SHA256, []⟩
    ∧ ∀ c, HashEngine.Clone ⟨HashAlgo.SHA256, []⟩ = some c →
        (c.update [1, 2]).final = (HashEngine.update ⟨HashAlgo.SHA256, []⟩ [1, 2]).final :=
  clone_agrees_on_fresh_engines ⟨HashAlgo.SHA256, []⟩ [1, 2] rfl

/-!
Sorting. `std::list::sort(lt)` performs a stable sort by the strict weak
order `lt`; a stable sort by `lt` is the same function as insertion sort
with the non-strict comparison `le a b := not (lt b a)`. The insertion sort
below is executable and its sortedness lemma only needs totality and
transitivity on the members of the list being sorted (the comparator used
by the program is transitive only on NUL-free wide strings).
-/

variable {α : Type}

def orderedInsertBy (le : α → α → Bool) (a : α) : List α → List α
  | [] => [a]
  | b :: l => if le a b then a :: b :: l else b :: orderedInsertBy le a l

def insertionSortBy (le : α → α → Bool) : List α → List α
  | [] => []
  | b :: l => orderedInsertBy le b (insertionSortBy le l)

theorem perm_orderedInsertBy (le : α → α → Bool) (a : α) :
    ∀ l : List α, List.Perm (orderedInsertBy le a l) (a :: l)
  | [] => List.Perm.refl _
  | b :: l => by
    simp only [orderedInsertBy]
    split
    · exact List.Perm.refl _
    · exact ((perm_orderedInsertBy le a l).cons b).trans (List.Perm.swap a b l)

theorem perm_insertionSortBy (le : α → α → Bool) :
    ∀ l : List α, List.Perm (insertionSortBy le l) l
  | [] => List.Perm.refl _
  | b :: l =>
    (perm_orderedInsertBy le b (insertionSortBy le l)).trans
      ((perm_insertionSortBy le l).cons b)

theorem mem_orderedInsertBy {le : α → α → Bool} {a x : α} :
    ∀ {l : List α}, x ∈ orderedInsertBy le a l ↔ x = a ∨ x ∈ l := by
  intro l
  rw [List.Perm.mem_iff (perm_orderedInsertBy le a l)]
  simp

theorem pairwise_orderedInsertBy {le : α → α → Bool} {a : α} :
    ∀ {l : List α},
      l.Pairwise (fun x y => le x y = true) →
      (∀ x ∈ l, le a x = true ∨ le x a = true) →
      (∀ x ∈ l, ∀ y ∈ l, le a x = true → le x y = true → le a y = true) →
      (orderedInsertBy le a l).Pairwise (fun x y => le x y = true)
  | [], _, _, _ => by simp [orderedInsertBy]
  | b :: t, hp, htot, htrans => by
    simp only [orderedInsertBy]
    split
    · rename_i hab
      refine List.Pairwise.cons ?_ hp
      intro x hx
      rcases List.mem_cons.1 hx with rfl | hxt
      · exact hab
      · exact htrans b (List.mem_cons_self _ _) x (List.mem_cons_of_mem _ hxt) hab
          ((List.pairwise_cons.1 hp).1 x hxt)
    · rename_i hab
      have hba : le b a = true := by
        rcases htot b (List.mem_cons_self _ _) with h | h
        · exact absurd h hab
        · exact h
      refine List.pairwise_cons.2 ⟨?_, ?_⟩
      · intro x hx
        rcases mem_orderedInsertBy.1 hx with rfl | hxt
        · exact hba
        · exact (List.pairwise_cons.1 hp).1 x hxt
      · exact pairwise_orderedInsertBy (List.pairwise_cons.1 hp).2
          (fun x hx => htot x (List.mem_cons_of_mem _ hx))
          (fun x hx y hy => htrans x (List.mem_cons_of_mem _ hx) y (List.mem_cons_of_mem _ hy))

theorem pairwise_insertionSortBy {le : α → α → Bool} :
    ∀ {l : List α},
      (∀ x ∈ l, ∀ y ∈ l, le x y = true ∨ le y x = true) →
      (∀ x ∈ l, ∀ y ∈ l, ∀ z ∈ l, le x y = true → le y z = true → le x z = true) →
      (insertionSortBy le l).Pairwise (fun x y => le x y = true)
  | [], _, _ => List.Pairwise.nil
  | b :: t, htot, htrans => by
    simp only [insertionSortBy]
    have hmem : ∀ x ∈ insertionSortBy le t, x ∈ t :=
      fun x hx => (perm_insertionSortBy le t).mem_iff.1 hx
    refine pairwise_orderedInsertBy
      (pairwise_insertionSortBy
        (fun x hx y hy => htot x (List.mem_cons_of_mem _ hx) y (List.mem_cons_of_mem _ hy))
        (fun x hx y hy z hz => htrans x (List.mem_cons_of_mem _ hx) y (List.mem_cons_of_mem _ hy)
          z (List.mem_cons_of_mem _ hz)))
      (fun x hx => htot b (List.mem_cons_self _ _) x (List.mem_cons_of_mem _ (hmem x hx)))
      (fun x hx y hy => htrans b (List.mem_cons_self _ _) x (List.mem_cons_of_mem _ (hmem x hx))
        y (List.mem_cons_of_mem _ (hmem y hy)))

/-!
The deterministic directory walker (DirHash.cpp:1918-2096), one directory
level. `HashDirectory` enumerates a directory's raw entries (the
enumeration order is the filesystem's and carries no guarantee), filters
them, sorts the survivors with `compare_nocase` over the display path
(`CDirContent::operator LPCWSTR`, DirHash.cpp:1213), and then processes
them in sorted order: subdirectories through a recursive `HashDirectory`
call and files through `HashFile`. The per-entry rejection tests located
at the top of the callees — `IsExcludedName(dir, false)` at
DirHash.cpp:1928, `IsExcludedName(file, true)` at DirHash.cpp:1780 and the
checksum-membership test at DirHash.cpp:1788 — are modelled inside the
processing loop; the recursion itself is represented by a `descend` event
(each visited directory is processed by this same pipeline).
Environmental failures (`FindFirstFile`, `CreateFileW`) are not modelled.
-/

/-- Model of `CPath` (DirHash.cpp:552): the display path and the absolute
path used for filesystem calls. -/
structure CPath where
  path : List Nat
  absolutPath : List Nat
deriving DecidableEq

/-- Model of `CPath::AppendName` (DirHash.cpp:594): appends a backslash
(92) and the name to both forms. -/
def CPath.AppendName (p : CPath) (szName : List Nat) : CPath :=
  ⟨p.path ++ 92 :: szName, p.absolutPath ++ 92 :: szName⟩

/-- Model of `CDirContent` (DirHash.cpp:1191): a directory entry, built by
the constructor from the parent's path and the entry's leaf name. -/
structure CDirContent where
  szPath : CPath
  isDir : Bool
deriving DecidableEq

/-- The `CDirContent(szPath, szName, bIsDir)` constructor (DirHash.cpp:1197). -/
def mkCDirContent (dirPath : CPath) (szName : List Nat) (bIsDir : Bool) : CDirContent :=
  ⟨dirPath.AppendName szName, bIsDir⟩

/-- One raw entry as produced by `FindFirstFile`/`FindNextFile`: its leaf
name, its directory attribute and whether `IsReparsePoint` holds of it. -/
structure RawEntry where
  cFileName : List Nat
  isDirectory : Bool
  isReparse : Bool

/-- The file-scope state consulted by the walker: the glob matcher
(`PathMatchSpec`, an external Windows API, kept abstract), the include and
exclude pattern lists, and the flags and paths used by the enumeration
filter (`g_bNoFollow`, sum mode, the parsed checksum paths — keyed by
display path — and the verification/output file paths). -/
structure WalkerConfig where
  PathMatchSpec : List Nat → List Nat → Bool
  onlySpecList : List (List Nat)
  excludeSpecList : List (List Nat)
  bNoFollow : Bool
  bSumMode : Bool
  bSkipError : Bool
  digestKeys : List (List Nat)
  verificationFileAbs : List Nat
  outputFileAbs : List Nat

/-- Model of `IsExcludedName` (DirHash.cpp:1216): the include list applies
only to files and, when present, decides alone; otherwise the exclude
list decides. -/
def IsExcludedName (cfg : WalkerConfig) (szName : List Nat) (bIsFile : Bool) : Bool :=
  if bIsFile ∧ cfg.onlySpecList ≠ [] then
    !(cfg.onlySpecList.any fun pat => cfg.PathMatchSpec szName pat)
  else
    cfg.excludeSpecList.any fun pat => cfg.PathMatchSpec szName pat

/-- One iteration of the enumeration loop of `HashDirectory`
(DirHash.cpp:1963-2007). The state is the `dirContent` list together with
the `g_sumFileSkipped` flag. Directories drop `.` and `..` and the
follow-link filter applies; files additionally go through the
checksum/output self-file suppression. -/
def enumStep (cfg : WalkerConfig) (dirPath : CPath) (st : List CDirContent × Bool)
    (ffd : RawEntry) : List CDirContent × Bool :=
  if ffd.isDirectory then
    if ffd.cFileName ≠ [46] ∧ ffd.cFileName ≠ [46, 46] then
      if !cfg.bNoFollow || !ffd.isReparse then
        (st.1 ++ [mkCDirContent dirPath ffd.cFileName true], st.2)
      else st
    else st
  else
    let entry := mkCDirContent dirPath ffd.cFileName false
    if !cfg.bNoFollow || !ffd.isReparse then
      if cfg.bSumMode ∧ st.2 = false then
        if cfg.digestKeys ≠ [] then
          if wcsicmp cfg.verificationFileAbs entry.szPath.absolutPath = 0 then (st.1, true)
          else (st.1 ++ [entry], st.2)
        else
          if cfg.outputFileAbs = [] then (st.1 ++ [entry], true)
          else if wcsicmp cfg.outputFileAbs entry.szPath.absolutPath = 0 then (st.1, true)
          else (st.1 ++ [entry], st.2)
      else (st.1 ++ [entry], st.2)
    else st

/-- The enumeration loop of `HashDirectory` over the raw listing. -/
def enumDirContent (cfg : WalkerConfig) (dirPath : CPath) (raw : List RawEntry)
    (sumFileSkipped : Bool) : List CDirContent × Bool :=
  raw.foldl (enumStep cfg dirPath) ([], sumFileSkipped)

/-- Model of `dirContent.sort(compare_nocase)` (DirHash.cpp:2040):
`std::list::sort` is stable, so it is insertion sort by the non-strict
companion of `compare_nocase`, applied to the display path
(`operator LPCWSTR`). -/
def sortDirContent (l : List CDirContent) : List CDirContent :=
  insertionSortBy (fun a b => !compare_nocase b.szPath.path a.szPath.path) l

/-- The observable actions of the processing loop: descending into a
subdirectory (recursive `HashDirectory`) and hashing a file (the body of
`HashFile` past its gates). -/
inductive WalkEvent where
  | descend (path : CPath)
  | hashFile (path : CPath)
deriving DecidableEq

/-- The processing loop of `HashDirectory` (DirHash.cpp:2079-2093) with the
callees' entry gates inlined: a subdirectory excluded by
`IsExcludedName(path, false)` returns 0 and is skipped; a file excluded by
`IsExcludedName(path, true)` is skipped; in sum-verification mode a file
missing from the checksum list is skipped under `-skipError` and otherwise
aborts the walk (`HashFile` returns -5 and the loop breaks). -/
def processLoop (cfg : WalkerConfig) : List CDirContent → List WalkEvent × Bool
  | [] => ([], false)
  | e :: rest =>
    if e.isDir then
      if IsExcludedName cfg e.szPath.path false then processLoop cfg rest
      else
        let t := processLoop cfg rest
        (WalkEvent.descend e.szPath :: t.1, t.2)
    else
      if IsExcludedName cfg e.szPath.path true then processLoop cfg rest
      else if cfg.bSumMode ∧ cfg.digestKeys ≠ [] ∧ e.szPath.path ∉ cfg.digestKeys then
        if cfg.bSkipError then processLoop cfg rest else ([], true)
      else
        let t := processLoop cfg rest
        (WalkEvent.hashFile e.szPath :: t.1, t.2)

/-- The body of `HashDirectory` for one directory: enumerate and filter,
sort, process in sorted order. The second component reports an aborted
walk. -/
def processDirContent (cfg : WalkerConfig) (dirPath : CPath) (raw : List RawEntry)
    (sumFileSkipped : Bool) : List WalkEvent × Bool :=
  processLoop cfg (sortDirContent (enumDirContent cfg dirPath raw sumFileSkipped).1)

/-- The leaf name of an entry path produced by appending a name to
`dirPath`: everything after the separator that `AppendName` added. -/
def leafName (dirPath : CPath) (p : CPath) : List Nat :=
  p.path.drop (dirPath.path.length + 1)

def eventPath : WalkEvent → CPath
  | .descend p => p
  | .hashFile p => p

def entryEvent (e : CDirContent) : WalkEvent :=
  if e.isDir then WalkEvent.descend e.szPath else WalkEvent.hashFile e.szPath

theorem eventPath_entryEvent (e : CDirContent) : eventPath (entryEvent e) = e.szPath := by
  unfold entryEvent
  split <;> rfl

theorem processLoop_shape (cfg : WalkerConfig) :
    ∀ l : List CDirContent,
      ∃ l2 : List CDirContent, List.Sublist l2 l ∧ (processLoop cfg l).1 = l2.map entryEvent
  | [] => ⟨[], List.Sublist.refl _, rfl⟩
  | e :: rest => by
    obtain ⟨l2, hsub, heq⟩ := processLoop_shape cfg rest
    simp only [processLoop]
    by_cases hd : e.isDir
    · by_cases hex : IsExcludedName cfg e.szPath.path false
      · exact ⟨l2, hsub.cons e, by simp [hd, hex, heq]⟩
      · refine ⟨e :: l2, hsub.cons₂ e, ?_⟩
        simp [hd, hex, heq, entryEvent]
    · by_cases hex : IsExcludedName cfg e.szPath.path true
      · exact ⟨l2, hsub.cons e, by simp [hd, hex, heq]⟩
      · by_cases hmiss : cfg.bSumMode ∧ cfg.digestKeys ≠ [] ∧ e.szPath.path ∉ cfg.digestKeys
        · by_cases hskip : cfg.bSkipError
          · exact ⟨l2, hsub.cons e, by simp [hd, hex, hmiss, hskip, heq]⟩
          · exact ⟨[], List.nil_sublist _, by simp [hd, hex, hmiss, hskip]⟩
        · refine ⟨e :: l2, hsub.cons₂ e, ?_⟩
          simp [hd, hex, hmiss, heq, entryEvent]

theorem enumStep_mem (cfg : WalkerConfig) (dirPath : CPath) (st : List CDirContent × Bool)
    (r : RawEntry) :
    ∀ e ∈ (enumStep cfg dirPath st r).1,
      e ∈ st.1 ∨ ∃ b, e = mkCDirContent dirPath r.cFileName b := by
  intro e he
  unfold enumStep at he
  simp only [] at he
  repeat' split at he
  all_goals first
    | exact Or.inl he
    | (simp only [List.mem_append, List.mem_singleton] at he
       rcases he with h | h
       · exact Or.inl h
       · exact Or.inr ⟨_, h⟩)

theorem enumDirContent_mem (cfg : WalkerConfig) (dirPath : CPath) :
    ∀ (raw : List RawEntry) (st : List CDirContent × Bool),
      ∀ e ∈ (raw.foldl (enumStep cfg dirPath) st).1,
        e ∈ st.1 ∨ ∃ r ∈ raw, ∃ b, e = mkCDirContent dirPath r.cFileName b
  | [], st => fun e he => Or.inl he
  | r :: raw, st => by
    intro e he
    rcases enumDirContent_mem cfg dirPath raw (enumStep cfg dirPath st r) e he with h | h
    · rcases enumStep_mem cfg dirPath st r e h with h2 | ⟨b, h2⟩
      · exact Or.inl h2
      · exact Or.inr ⟨r, List.mem_cons_self _ _, b, h2⟩
    · obtain ⟨r2, hr2, b, hb⟩ := h
      exact Or.inr ⟨r2, List.mem_cons_of_mem _ hr2, b, hb⟩

/-- C1: for every directory visited by the walker — arbitrary raw listing,
filters, flags and suppression state — the surviving entries are
processed (directories descended, files emitted) in ascending
case-insensitive order of their leaf names. The two NUL-freeness
hypotheses state that the wide strings involved do not contain their own
terminator. -/
theorem walker_canonical_order (cfg : WalkerConfig) (dirPath : CPath) (raw : List RawEntry)
    (sk : Bool) (hdir : 0 ∉ dirPath.path) (hraw : ∀ r ∈ raw, 0 ∉ r.cFileName) :
    (processDirContent cfg dirPath raw sk).1.Pairwise
      (fun ev1 ev2 =>
        wcsicmp (leafName dirPath (eventPath ev1)) (leafName dirPath (eventPath ev2)) ≤ 0) := by
  set content := (enumDirContent cfg dirPath raw sk).1 with hcontent
  have hshape : ∀ e ∈ content, ∃ name, 0 ∉ name ∧ e.szPath.path = dirPath.path ++ 92 :: name := by
    intro e he
    rcases enumDirContent_mem cfg dirPath raw ([], sk) e he with h | ⟨r, hr, b, hb⟩
    · simp at h
    · refine ⟨r.cFileName, hraw r hr, ?_⟩
      rw [hb]
      rfl
  have hkeyfree : ∀ e ∈ content, 0 ∉ e.szPath.path := by
    intro e he
    obtain ⟨name, hn, hp⟩ := hshape e he
    rw [hp]
    intro hmem
    rcases List.mem_append.1 hmem with h | h
    · exact hdir h
    · rcases List.mem_cons.1 h with h | h
      · omega
      · exact hn h
  set le : CDirContent → CDirContent → Bool :=
    fun a b => !compare_nocase b.szPath.path a.szPath.path with hle
  have htot : ∀ x ∈ content, ∀ y ∈ content, le x y = true ∨ le y x = true := by
    intro x _ y _
    simp only [hle, compare_nocase, Bool.not_eq_true', decide_eq_false_iff_not, not_lt]
    have := wcsicmp_neg x.szPath.path y.szPath.path
    omega
  have htrans : ∀ x ∈ content, ∀ y ∈ content, ∀ z ∈ content,
      le x y = true → le y z = true → le x z = true := by
    intro x hx y hy z hz h1 h2
    simp only [hle, compare_nocase, Bool.not_eq_true', decide_eq_false_iff_not, not_lt] at h1 h2 ⊢
    have e1 : wcsicmp x.szPath.path y.szPath.path ≤ 0 := by
      have := wcsicmp_neg x.szPath.path y.szPath.path
      omega
    have e2 : wcsicmp y.szPath.path z.szPath.path ≤ 0 := by
      have := wcsicmp_neg y.szPath.path z.szPath.path
      omega
    have e3 := wcsicmp_trans_le (hkeyfree x hx) (hkeyfree y hy) (hkeyfree z hz) e1 e2
    have := wcsicmp_neg x.szPath.path z.szPath.path
    omega
  have hsorted : (sortDirContent content).Pairwise (fun x y => le x y = true) :=
    pairwise_insertionSortBy htot htrans
  have hmemsort : ∀ x ∈ sortDirContent content, x ∈ content := by
    intro x hx
    exact (perm_insertionSortBy _ content).mem_iff.1 hx
  have hleaf : (sortDirContent content).Pairwise
      (fun a b => wcsicmp (leafName dirPath a.szPath) (leafName dirPath b.szPath) ≤ 0) := by
    refine hsorted.imp_of_mem ?_
    intro a b ha hb hab
    obtain ⟨na, hna, hpa⟩ := hshape a (hmemsort a ha)
    obtain ⟨nb, hnb, hpb⟩ := hshape b (hmemsort b hb)
    simp only [hle, compare_nocase, Bool.not_eq_true', decide_eq_false_iff_not, not_lt] at hab
    have h1 : wcsicmp a.szPath.path b.szPath.path ≤ 0 := by
      have := wcsicmp_neg a.szPath.path b.szPath.path
      omega
    have hpa2 : a.szPath.path = (dirPath.path ++ [92]) ++ na := by rw [hpa]; simp
    have hpb2 : b.szPath.path = (dirPath.path ++ [92]) ++ nb := by rw [hpb]; simp
    rw [hpa2, hpb2, wcsicmp_append_left] at h1
    have hla : leafName dirPath a.szPath = na := by
      unfold leafName
      rw [hpa2]
      have : dirPath.path.length + 1 = (dirPath.path ++ [92]).length := by simp
      rw [this, List.drop_left]
    have hlb : leafName dirPath b.szPath = nb := by
      unfold leafName
      rw [hpb2]
      have : dirPath.path.length + 1 = (dirPath.path ++ [92]).length := by simp
      rw [this, List.drop_left]
    rw [hla, hlb]
    exact h1
  obtain ⟨l2, hsub, heq⟩ := processLoop_shape cfg (sortDirContent content)
  unfold processDirContent
  rw [← hcontent, heq, List.pairwise_map]
  refine (hleaf.sublist hsub).imp_of_mem ?_
  intro a b _ _ h
  rw [eventPath_entryEvent, eventPath_entryEvent]
  exact h

/-- Witness for C1 at a concrete input: a directory `d` containing the
files `b` and `A` (listed in that order by the filesystem) with no
filters; the files are processed in the order `A`, `b`. -/
theorem walker_canonical_order_witness :
    (0 ∉ [100] ∧ ∀ r ∈ [RawEntry.mk [98] false false, RawEntry.mk [65] false false],
        0 ∉ r.cFileName)
    ∧ (processDirContent
        ⟨fun _ _ => false, [], [], false, false, false, [], [], []⟩
        ⟨[100], [100]⟩ [RawEntry.mk [98] false false, RawEntry.mk [65] false false] false).1.Pairwise
      (fun ev1 ev2 =>
        wcsicmp (leafName ⟨[100], [100]⟩ (eventPath ev1))
          (leafName ⟨[100], [100]⟩ (eventPath ev2)) ≤ 0) :=
  ⟨⟨by decide, by decide⟩,
    walker_canonical_order ⟨fun _ _ => false, [], [], false, false, false, [], [], []⟩
      ⟨[100], [100]⟩ [RawEntry.mk [98] false false, RawEntry.mk [65] false false] false
      (by decide) (by decide)⟩

theorem processLoop_hashFile_mem (cfg : WalkerConfig) :
    ∀ (l : List CDirContent) (p : CPath),
      WalkEvent.hashFile p ∈ (processLoop cfg l).1 →
      ∃ e ∈ l, e.szPath = p ∧ e.isDir = false ∧ IsExcludedName cfg p.path true = false := by
  intro l
  induction l with
  | nil => intro p hp; simp [processLoop] at hp
  | cons e rest ih =>
    intro p hp
    simp only [processLoop] at hp
    by_cases hd : e.isDir = true
    · rw [if_pos hd] at hp
      by_cases hex : IsExcludedName cfg e.szPath.path false = true
      · rw [if_pos hex] at hp
        obtain ⟨e2, he2, h⟩ := ih p hp
        exact ⟨e2, List.mem_cons_of_mem _ he2, h⟩
      · rw [if_neg hex] at hp
        have hp2 : WalkEvent.hashFile p = WalkEvent.descend e.szPath
            ∨ WalkEvent.hashFile p ∈ (processLoop cfg rest).1 := List.mem_cons.1 hp
        rcases hp2 with h | h
        · exact absurd h (by simp)
        · obtain ⟨e2, he2, hh⟩ := ih p h
          exact ⟨e2, List.mem_cons_of_mem _ he2, hh⟩
    · rw [if_neg hd] at hp
      by_cases hex : IsExcludedName cfg e.szPath.path true = true
      · rw [if_pos hex] at hp
        obtain ⟨e2, he2, h⟩ := ih p hp
        exact ⟨e2, List.mem_cons_of_mem _ he2, h⟩
      · rw [if_neg hex] at hp
        by_cases hmiss : cfg.bSumMode = true ∧ cfg.digestKeys ≠ [] ∧ e.szPath.path ∉ cfg.digestKeys
        · rw [if_pos hmiss] at hp
          by_cases hskip : cfg.bSkipError = true
          · rw [if_pos hskip] at hp
            obtain ⟨e2, he2, h⟩ := ih p hp
            exact ⟨e2, List.mem_cons_of_mem _ he2, h⟩
          · rw [if_neg hskip] at hp
            exact absurd hp (by simp)
        · rw [if_neg hmiss] at hp
          have hp2 : WalkEvent.hashFile p = WalkEvent.hashFile e.szPath
              ∨ WalkEvent.hashFile p ∈ (processLoop cfg rest).1 := List.mem_cons.1 hp
          rcases hp2 with h | h
          · injection h with hpe
            refine ⟨e, List.mem_cons_self _ _, hpe.symm, by simpa using hd, ?_⟩
            rw [hpe]
            simpa using hex
          · obtain ⟨e2, he2, hh⟩ := ih p h
            exact ⟨e2, List.mem_cons_of_mem _ he2, hh⟩
theorem processLoop_include_scope (cfg : WalkerConfig)
    (honly : cfg.onlySpecList ≠ []) (hexcl : cfg.excludeSpecList = [])
    (hdig : cfg.digestKeys = []) :
    ∀ l : List CDirContent,
      (processLoop cfg l).2 = false
      ∧ (∀ e ∈ l, e.isDir = true → WalkEvent.descend e.szPath ∈ (processLoop cfg l).1)
      ∧ (∀ e ∈ l, e.isDir = false →
          (WalkEvent.hashFile e.szPath ∈ (processLoop cfg l).1
            ↔ cfg.onlySpecList.any (fun pat => cfg.PathMatchSpec e.szPath.path pat) = true)) := by
  have hdirfree : ∀ name, IsExcludedName cfg name false = false := by
    intro name
    unfold IsExcludedName
    rw [if_neg (by simp), hexcl]
    rfl
  have hfile : ∀ name, IsExcludedName cfg name true
      = !(cfg.onlySpecList.any fun pat => cfg.PathMatchSpec name pat) := by
    intro name
    unfold IsExcludedName
    rw [if_pos ⟨rfl, honly⟩]
  have hnomiss : ∀ p : CPath,
      ¬(cfg.bSumMode = true ∧ cfg.digestKeys ≠ [] ∧ p.path ∉ cfg.digestKeys) := by
    intro p h
    exact h.2.1 hdig
  intro l
  induction l with
  | nil => exact ⟨rfl, by simp, by simp⟩
  | cons e rest ih =>
    by_cases hd : e.isDir = true
    · have hstep : processLoop cfg (e :: rest)
          = (WalkEvent.descend e.szPath :: (processLoop cfg rest).1, (processLoop cfg rest).2) := by
        simp only [processLoop]
        rw [if_pos hd, if_neg (by simp [hdirfree])]
      refine ⟨by rw [hstep]; exact ih.1, ?_, ?_⟩
      · intro e2 he2 hde2
        rw [hstep]
        rcases List.mem_cons.1 he2 with h | h
        · subst h
          exact List.mem_cons_self _ _
        · exact List.mem_cons_of_mem _ (ih.2.1 e2 h hde2)
      · intro e2 he2 hfe2
        rw [hstep]
        rcases List.mem_cons.1 he2 with h | h
        · subst h
          rw [hfe2] at hd
          exact absurd hd (by simp)
        · have hiff := ih.2.2 e2 h hfe2
          constructor
          · intro hmem
            have hmem2 : WalkEvent.hashFile e2.szPath = WalkEvent.descend e.szPath
                ∨ WalkEvent.hashFile e2.szPath ∈ (processLoop cfg rest).1 :=
              List.mem_cons.1 hmem
            rcases hmem2 with hh | hh
            · exact absurd hh (by simp)
            · exact hiff.1 hh
          · intro hmatch
            exact List.mem_cons_of_mem _ (hiff.2 hmatch)
    · by_cases hmatch : (cfg.onlySpecList.any fun pat => cfg.PathMatchSpec e.szPath.path pat) = true
      · have hex : ¬(IsExcludedName cfg e.szPath.path true = true) := by
          rw [hfile, hmatch]
          simp
        have hstep : processLoop cfg (e :: rest)
            = (WalkEvent.hashFile e.szPath :: (processLoop cfg rest).1,
                (processLoop cfg rest).2) := by
          simp only [processLoop]
          rw [if_neg hd, if_neg hex, if_neg (hnomiss e.szPath)]
        refine ⟨by rw [hstep]; exact ih.1, ?_, ?_⟩
        · intro e2 he2 hde2
          rw [hstep]
          rcases List.mem_cons.1 he2 with h | h
          · subst h
            rw [hde2] at hd
            exact absurd hd (by simp)
          · exact List.mem_cons_of_mem _ (ih.2.1 e2 h hde2)
        · intro e2 he2 hfe2
          rw [hstep]
          rcases List.mem_cons.1 he2 with h | h
          · subst h
            simp only [hmatch, iff_true]
            exact List.mem_cons_self _ _
          · have hiff := ih.2.2 e2 h hfe2
            constructor
            · intro hmem
              have hmem2 : WalkEvent.hashFile e2.szPath = WalkEvent.hashFile e.szPath
                  ∨ WalkEvent.hashFile e2.szPath ∈ (processLoop cfg rest).1 :=
                List.mem_cons.1 hmem
              rcases hmem2 with hh | hh
              · injection hh with hpe
                rw [hpe]
                exact hmatch
              · exact hiff.1 hh
            · intro hm
              exact List.mem_cons_of_mem _ (hiff.2 hm)
      · have hany : (cfg.onlySpecList.any fun pat => cfg.PathMatchSpec e.szPath.path pat) = false :=
          Bool.eq_false_iff.2 hmatch
        have hex : IsExcludedName cfg e.szPath.path true = true := by
          rw [hfile, hany]
          rfl
        have hstep : processLoop cfg (e :: rest) = processLoop cfg rest := by
          simp only [processLoop]
          rw [if_neg hd, if_pos hex]
        refine ⟨by rw [hstep]; exact ih.1, ?_, ?_⟩
        · intro e2 he2 hde2
          rw [hstep]
          rcases List.mem_cons.1 he2 with h | h
          · subst h
            rw [hde2] at hd
            exact absurd hd (by simp)
          · exact ih.2.1 e2 h hde2
        · intro e2 he2 hfe2
          rw [hstep]
          rcases List.mem_cons.1 he2 with h | h
          · subst h
            rw [hany]
            constructor
            · intro hmem
              exfalso
              obtain ⟨e3, _, _, _, hexe3⟩ := processLoop_hashFile_mem cfg rest e2.szPath hmem
              rw [hfile, hany] at hexe3
              exact absurd hexe3 (by decide)
            · intro hfalse
              exact absurd hfalse (by decide)
          · exact ih.2.2 e2 h hfe2
/-- C8: the include list applies only to files — the directory test never
consults it and reduces to the exclude test — and with a non-empty include
list, an empty exclude list and no parsed checksum list (the include
scenario is manifest computation; in verify mode a file missing from the
checksum list aborts the walk regardless of patterns), every directory
that survives enumeration is descended into, the walk never aborts, and a
file is emitted if and only if it matches at least one include pattern. -/
theorem include_patterns_scope :
    (∀ (cfg : WalkerConfig) (name : List Nat),
        IsExcludedName cfg name false
          = cfg.excludeSpecList.any (fun pat => cfg.PathMatchSpec name pat))
    ∧ (∀ (cfg : WalkerConfig) (dirPath : CPath) (raw : List RawEntry) (sk : Bool),
        cfg.onlySpecList ≠ [] → cfg.excludeSpecList = [] → cfg.digestKeys = [] →
        (processDirContent cfg dirPath raw sk).2 = false
        ∧ (∀ e ∈ sortDirContent (enumDirContent cfg dirPath raw sk).1, e.isDir = true →
            WalkEvent.descend e.szPath ∈ (processDirContent cfg dirPath raw sk).1)
        ∧ (∀ e ∈ sortDirContent (enumDirContent cfg dirPath raw sk).1, e.isDir = false →
            (WalkEvent.hashFile e.szPath ∈ (processDirContent cfg dirPath raw sk).1
              ↔ cfg.onlySpecList.any (fun pat => cfg.PathMatchSpec e.szPath.path pat) = true))) := by
  constructor
  · intro cfg name
    unfold IsExcludedName
    rw [if_neg (by simp)]
  · intro cfg dirPath raw sk honly hexcl hdig
    exact processLoop_include_scope cfg honly hexcl hdig
      (sortDirContent (enumDirContent cfg dirPath raw sk).1)

/-- Witness for C8 at a concrete input: exact-match patterns, include list
containing the path of file `A` under directory `d`, a raw listing with
the files `A` and `b` and the subdirectory `s`; the subdirectory is
descended, `A` is emitted and `b` is not. -/
theorem include_patterns_scope_witness :
    IsExcludedName ⟨fun s p => s = p, [[100, 92, 65]], [], false, false, false, [], [], []⟩
        [100, 92, 115] false = false
    ∧ (processDirContent ⟨fun s p => s = p, [[100, 92, 65]], [], false, false, false, [], [], []⟩
        ⟨[100], [100]⟩
        [RawEntry.mk [65] false false, RawEntry.mk [98] false false, RawEntry.mk [115] true false]
        false).2 = false
    ∧ WalkEvent.descend ⟨[100, 92, 115], [100, 92, 115]⟩
        ∈ (processDirContent ⟨fun s p => s = p, [[100, 92, 65]], [], false, false, false, [], [], []⟩
            ⟨[100], [100]⟩
            [RawEntry.mk [65] false false, RawEntry.mk [98] false false,
              RawEntry.mk [115] true false] false).1
    ∧ WalkEvent.hashFile ⟨[100, 92, 65], [100, 92, 65]⟩
        ∈ (processDirContent ⟨fun s p => s = p, [[100, 92, 65]], [], false, false, false, [], [], []⟩
            ⟨[100], [100]⟩
            [RawEntry.mk [65] false false, RawEntry.mk [98] false false,
              RawEntry.mk [115] true false] false).1
    ∧ ¬ WalkEvent.hashFile ⟨[100, 92, 98], [100, 92, 98]⟩
        ∈ (processDirContent ⟨fun s p => s = p, [[100, 92, 65]], [], false, false, false, [], [], []⟩
            ⟨[100], [100]⟩
            [RawEntry.mk [65] false false, RawEntry.mk [98] false false,
              RawEntry.mk [115] true false] false).1 := by
  have h1 := include_patterns_scope.1
    ⟨fun s p => s = p, [[100, 92, 65]], [], false, false, false, [], [], []⟩ [100, 92, 115]
  have h2 := include_patterns_scope.2
    ⟨fun s p => s = p, [[100, 92, 65]], [], false, false, false, [], [], []⟩
    ⟨[100], [100]⟩
    [RawEntry.mk [65] false false, RawEntry.mk [98] false false, RawEntry.mk [115] true false]
    false (by decide) rfl rfl
  refine ⟨h1, h2.1, ?_, ?_, ?_⟩
  · exact h2.2.1 (mkCDirContent ⟨[100], [100]⟩ [115] true) (by decide) rfl
  · exact (h2.2.2 (mkCDirContent ⟨[100], [100]⟩ [65] false) (by decide) rfl).2 (by decide)
  · intro hmem
    have hq := (h2.2.2 (mkCDirContent ⟨[100], [100]⟩ [98] false) (by decide) rfl).1 hmem
    exact absurd hq (by decide)

/-!
The checksum-file parser `ParseSumFile` (DirHash.cpp:2594-2697) and the
canonical manifest order of `SortSumFile` (DirHash.cpp:2700-2725).

The file is read line by line with `fgetws` in text mode; the embedding
takes the file's newline-split lines as input. Each line is then truncated
at its first embedded NUL, because every subsequent operation of the
source goes through `wcslen` and NUL-terminated string functions.
Reads past the terminator (the source compares `ptr` against
`&szLine[l-1]` and may inspect one character beyond the string) see the
NUL value 0, which `getChar` supplies.
-/

/-- A NUL-terminated read at position `p`: characters past the end read
as 0. -/
def getChar (line : List Nat) (p : Nat) : Nat := line.getD p 0

/-- The space-skipping scan of `ParseSumFile` (DirHash.cpp:2633):
`while (ptr != &szLine[l-1] && *ptr == L' ') ptr++`. The fuel only bounds
the iteration count: the scan advances only while it reads a space, and a
position at or past `line.length` reads the terminator, so at most
`line.length + 1 - p` steps happen and the initial fuel is never
exhausted. -/
def skipSpacesFuel (line : List Nat) : Nat → Nat → Nat
  | 0, p => p
  | fuel + 1, p =>
    if p ≠ line.length - 1 ∧ getChar line p = 32 then skipSpacesFuel line fuel (p + 1)
    else p

def skipSpaces (line : List Nat) (p : Nat) : Nat := skipSpacesFuel line (line.length + 1) p

/-- One line of a checksum file (DirHash.cpp:2626-2665, given a non-empty
NUL-truncated line): split at the first space, skip further spaces and an
optional `*` (each scan refusing to stand on the last character), require
the remaining path to start strictly before the last character, decode the
digest, and require its length to match `digestLen` — or, when no line has
been accepted yet (`digestLen = 0`), to be a supported hash size. Returns
the raw path portion and the digest bytes. -/
def ParseSumLine (digestLen : Nat) (line : List Nat) : Option (List Nat × List Nat) :=
  match line.findIdx? (· = 32) with
  | none => none
  | some i =>
    let l := line.length
    let p1 := skipSpaces line (i + 1)
    let p2 := if p1 ≠ l - 1 ∧ getChar line p1 = 42 then p1 + 1 else p1
    if p2 ≠ l - 1 then
      match FromHex (line.take i) with
      | (true, digest) =>
        if (digestLen ≠ 0 ∧ digest.length = digestLen)
            ∨ (digestLen = 0 ∧ IsHashSize digest.length = true) then
          some (line.drop p2, digest)
        else none
      | (false, _) => none
    else none

/-- `std::map<K,V>` assignment `m[k] = v`: one entry per key; an existing
key keeps its entry's position and gets the new value, a new key is
inserted (the ordered map's internal key order is irrelevant to the
claims, which access the table through lookups). -/
def updateOrInsert {κ β : Type} [DecidableEq κ] : List (κ × β) → κ → β → List (κ × β)
  | [], k, v => [(k, v)]
  | (k0, v0) :: rest, k, v =>
    if k0 = k then (k0, v) :: rest else (k0, v0) :: updateOrInsert rest k v

/-- `std::map::find`: the value stored at a key. -/
def assocLookup {κ β : Type} [DecidableEq κ] : List (κ × β) → κ → Option β
  | [], _ => none
  | (k0, v0) :: rest, k => if k0 = k then some v0 else assocLookup rest k

/-- The loop state of `ParseSumFile`: the enforced digest length, the
`digestList` map, the recorded skipped line numbers, the current 1-based
line count and the `bFailed` flag as it stands at a loop exit. The
`accepted` field is instrumentation only: the `(entryName, digest)` pairs
of the accepted lines in order, recorded so that the theorems can speak
about which line a table entry came from. -/
structure SumState where
  digestLen : Nat
  digestList : List (List Nat × List Nat)
  skippedLines : List Nat
  lineNumber : Nat
  failed : Bool
  accepted : List (List Nat × List Nat)

def initSumState : SumState := ⟨0, [], [], 0, false, []⟩

/-- One iteration of the `ParseSumFile` loop (DirHash.cpp:2610-2677):
empty lines are skipped silently; an accepted line has `/` replaced by
`\` in its path, the input-directory prefix prepended when
`normalizePath` asks for it and the path does not already carry it, fixes
`digestLen` and is stored (last occurrence of a path wins); a failed line
after line 1 is recorded in `skippedLines`; a failed line 1 sets
`bFailed`. -/
def sumStep (normalizePath : Bool) (inputDirPath : List Nat) (st : SumState)
    (rawLine : List Nat) : SumState :=
  let line := rawLine.takeWhile (· ≠ 0)
  let n := st.lineNumber + 1
  if line = [] then { st with lineNumber := n }
  else
    match ParseSumLine st.digestLen line with
    | some (name0, digest) =>
      let name1 := name0.map (fun c => if c = 47 then 92 else c)
      let entryName :=
        if normalizePath ∧ inputDirPath.length ≠ 0
            ∧ (name1.length < inputDirPath.length
                ∨ wcsicmp inputDirPath (name1.take inputDirPath.length) ≠ 0) then
          inputDirPath ++ name1
        else name1
      { digestLen := digest.length
        digestList := updateOrInsert st.digestList entryName digest
        skippedLines := st.skippedLines
        lineNumber := n
        failed := false
        accepted := st.accepted ++ [(entryName, digest)] }
    | none =>
      if 1 < n then { st with lineNumber := n, skippedLines := st.skippedLines ++ [n] }
      else { st with lineNumber := n, failed := true }

/-- The `ParseSumFile` loop: a set `bFailed` breaks out of the loop. -/
def sumLoop (normalizePath : Bool) (inputDirPath : List Nat) :
    SumState → List (List Nat) → SumState
  | st, [] => st
  | st, l :: ls =>
    let st2 := sumStep normalizePath inputDirPath st l
    if st2.failed then st2 else sumLoop normalizePath inputDirPath st2 ls

/-- The result of `ParseSumFile`: the return value, the `digestList` map,
the skipped line numbers, and the instrumentation trace of accepted
lines. -/
structure SumParseResult where
  ok : Bool
  digestList : List (List Nat × List Nat)
  skippedLines : List Nat
  accepted : List (List Nat × List Nat)

/-- Model of `ParseSumFile` (DirHash.cpp:2594): on a set `bFailed` the
table is cleared and the call fails; an empty table also fails; otherwise
the call succeeds. -/
def ParseSumFile (normalizePath : Bool) (inputDirPath : List Nat)
    (lines : List (List Nat)) : SumParseResult :=
  let st := sumLoop normalizePath inputDirPath initSumState lines
  if st.failed then ⟨false, [], st.skippedLines, st.accepted⟩
  else if st.digestList = [] then ⟨false, st.digestList, st.skippedLines, st.accepted⟩
  else ⟨true, st.digestList, st.skippedLines, st.accepted⟩

/-- Model of `countPathDepth` (DirHash.cpp:2700): number of backslashes. -/
def countPathDepth (path : List Nat) : Nat := path.count 92

/-- The comparator of `SortSumFile` (DirHash.cpp:2717-2725): deeper paths
first, then case-insensitive lexical order. -/
def sumEntryPrecedes (a b : List Nat) : Bool :=
  if countPathDepth a ≠ countPathDepth b then decide (countPathDepth b < countPathDepth a)
  else decide (wcsicmp a b < 0)

/-- Case-insensitively equal NUL-free strings have equal backslash
counts: the folding touches only `A`..`Z`, never the separator. -/
theorem wcsicmp_eq_countPathDepth :
    ∀ a b : List Nat, 0 ∉ a → 0 ∉ b → wcsicmp a b = 0 →
      countPathDepth a = countPathDepth b
  | [], [], _, _, _ => rfl
  | [], b :: bs, _, hb, h => by
    exfalso
    simp only [wcsicmp] at h
    have h0 : towlower b = 0 := by omega
    exact hb (by simp [towlower_eq_zero h0])
  | a :: as, [], ha, _, h => by
    exfalso
    simp only [wcsicmp] at h
    have h0 : towlower a = 0 := by omega
    exact ha (by simp [towlower_eq_zero h0])
  | a :: as, b :: bs, ha, hb, h => by
    have htl : towlower a = towlower b := by
      by_cases hne : towlower a = towlower b
      · exact hne
      · exfalso
        simp only [wcsicmp, if_pos hne] at h
        omega
    have hrec : wcsicmp as bs = 0 := by
      simpa only [wcsicmp, htl, ne_eq, not_true_eq_false, if_false] using h
    have hih := wcsicmp_eq_countPathDepth as bs
      (fun hmem => ha (List.mem_cons_of_mem _ hmem))
      (fun hmem => hb (List.mem_cons_of_mem _ hmem)) hrec
    have hsep : a = 92 ↔ b = 92 := by
      constructor
      · intro h92
        subst h92
        exact towlower_eq_backslash htl.symm
      · intro h92
        subst h92
        exact towlower_eq_backslash htl
    simp only [countPathDepth, List.count_cons] at *
    by_cases h92 : a = 92
    · rw [if_pos (by simpa using h92), if_pos (by simpa using hsep.1 h92), hih]
    · rw [if_neg (by simpa using h92), if_neg (by simpa using fun hb92 => h92 (hsep.2 hb92)),
        hih]

/-- C3 counterexample: the canonical manifest ordering is not a strict
total order on the entries of a manifest. The two-line checksum file with
digest `00…0` for path `Ab` and digest `11…1` for path `aB` parses into a
table containing both distinct paths, yet neither precedes the other
under (depth descending, case-insensitive ascending). -/
theorem sum_order_not_total_counterexample :
    (assocLookup (ParseSumFile false []
        [List.replicate 32 48 ++ [32, 32, 65, 98],
         List.replicate 32 49 ++ [32, 32, 97, 66]]).digestList [65, 98]
      = some (List.replicate 16 0))
    ∧ (assocLookup (ParseSumFile false []
        [List.replicate 32 48 ++ [32, 32, 65, 98],
         List.replicate 32 49 ++ [32, 32, 97, 66]]).digestList [97, 66]
      = some (List.replicate 16 17))
    ∧ [65, 98] ≠ [97, 66]
    ∧ sumEntryPrecedes [65, 98] [97, 66] = false
    ∧ sumEntryPrecedes [97, 66] [65, 98] = false := by
  refine ⟨?_, ?_, by decide, by decide, by decide⟩ <;> decide

/-- C3 amended: on NUL-free paths, exactly one of two manifest paths
precedes the other under the `SortSumFile` comparator precisely when the
paths are not case-insensitively equal; paths that differ only by ASCII
case tie (and can both occur in one manifest, as the counterexample
shows). -/
theorem sum_order_strict_iff_case_distinct (p1 p2 : List Nat)
    (h1 : 0 ∉ p1) (h2 : 0 ∉ p2) :
    ((sumEntryPrecedes p1 p2 = true ∧ sumEntryPrecedes p2 p1 = false)
      ∨ (sumEntryPrecedes p1 p2 = false ∧ sumEntryPrecedes p2 p1 = true))
    ↔ wcsicmp p1 p2 ≠ 0 := by
  have hneg := wcsicmp_neg p1 p2
  constructor
  · intro hone h0
    have hdep := wcsicmp_eq_countPathDepth p1 p2 h1 h2 h0
    have e1 : sumEntryPrecedes p1 p2 = false := by
      unfold sumEntryPrecedes
      rw [if_neg (by omega)]
      simp only [decide_eq_false_iff_not, not_lt]
      omega
    have e2 : sumEntryPrecedes p2 p1 = false := by
      unfold sumEntryPrecedes
      rw [if_neg (by omega)]
      simp only [decide_eq_false_iff_not, not_lt]
      omega
    rcases hone with ⟨ha, _⟩ | ⟨_, hb⟩
    · rw [e1] at ha
      exact absurd ha (by decide)
    · rw [e2] at hb
      exact absurd hb (by decide)
  · intro hne
    by_cases hdep : countPathDepth p1 = countPathDepth p2
    · by_cases hlt : wcsicmp p1 p2 < 0
      · left
        constructor
        · unfold sumEntryPrecedes
          rw [if_neg (by omega)]
          simpa using hlt
        · unfold sumEntryPrecedes
          rw [if_neg (by omega)]
          simp only [decide_eq_false_iff_not, not_lt]
          omega
      · right
        constructor
        · unfold sumEntryPrecedes
          rw [if_neg (by omega)]
          simpa using hlt
        · unfold sumEntryPrecedes
          rw [if_neg (by omega)]
          simp only [decide_eq_true_eq]
          omega
    · by_cases hlt : countPathDepth p2 < countPathDepth p1
      · left
        constructor
        · unfold sumEntryPrecedes
          rw [if_pos (by omega)]
          simpa using hlt
        · unfold sumEntryPrecedes
          rw [if_pos (by omega)]
          simp only [decide_eq_false_iff_not, not_lt]
          omega
      · right
        constructor
        · unfold sumEntryPrecedes
          rw [if_pos (by omega)]
          simp only [decide_eq_false_iff_not, not_lt]
          omega
        · unfold sumEntryPrecedes
          rw [if_pos (by omega)]
          simp only [decide_eq_true_eq]
          omega

/-- Witness for C3's amended theorem at concrete inputs: `dir\x` (depth 1)
precedes `y` (depth 0), and exactly one order holds; conversely `x`
versus `Y` is decided by the case-insensitive comparison. -/
theorem sum_order_strict_iff_case_distinct_witness :
    (((sumEntryPrecedes [100, 92, 120] [121] = true
        ∧ sumEntryPrecedes [121] [100, 92, 120] = false)
      ∨ (sumEntryPrecedes [100, 92, 120] [121] = false
        ∧ sumEntryPrecedes [121] [100, 92, 120] = true))
      ↔ wcsicmp [100, 92, 120] [121] ≠ 0)
    ∧ (((sumEntryPrecedes [120] [89] = true ∧ sumEntryPrecedes [89] [120] = false)
      ∨ (sumEntryPrecedes [120] [89] = false ∧ sumEntryPrecedes [89] [120] = true))
      ↔ wcsicmp [120] [89] ≠ 0) :=
  ⟨sum_order_strict_iff_case_distinct [100, 92, 120] [121] (by decide) (by decide),
   sum_order_strict_iff_case_distinct [120] [89] (by decide) (by decide)⟩

theorem assocLookup_updateOrInsert {κ β : Type} [DecidableEq κ] :
    ∀ (m : List (κ × β)) (k q : κ) (v : β),
      assocLookup (updateOrInsert m k v) q = if q = k then some v else assocLookup m q
  | [], k, q, v => by
    simp only [updateOrInsert, assocLookup]
    by_cases h : q = k
    · rw [if_pos h, if_pos h.symm]
    · rw [if_neg h, if_neg (fun hh => h hh.symm)]
  | (k0, v0) :: rest, k, q, v => by
    simp only [updateOrInsert]
    by_cases h0 : k0 = k
    · rw [if_pos h0]
      subst h0
      simp only [assocLookup]
      by_cases hq : k0 = q
      · rw [if_pos hq, if_pos hq.symm]
      · rw [if_neg hq, if_neg (fun hh => hq hh.symm), if_neg hq]
    · rw [if_neg h0]
      simp only [assocLookup]
      by_cases hq : k0 = q
      · rw [if_pos hq, if_pos hq, if_neg (fun hh : q = k => h0 (hq.trans hh))]
      · rw [if_neg hq, if_neg hq, assocLookup_updateOrInsert rest k q v]

theorem mem_keys_updateOrInsert {κ β : Type} [DecidableEq κ] :
    ∀ (m : List (κ × β)) (k q : κ) (v : β),
      q ∈ (updateOrInsert m k v).map Prod.fst ↔ q = k ∨ q ∈ m.map Prod.fst
  | [], k, q, v => by simp [updateOrInsert]
  | (k0, v0) :: rest, k, q, v => by
    simp only [updateOrInsert]
    by_cases h0 : k0 = k
    · rw [if_pos h0]
      subst h0
      simp only [List.map_cons, List.mem_cons]
      tauto
    · rw [if_neg h0]
      simp only [List.map_cons, List.mem_cons, mem_keys_updateOrInsert rest k q v]
      tauto

theorem nodup_keys_updateOrInsert {κ β : Type} [DecidableEq κ] :
    ∀ (m : List (κ × β)) (k : κ) (v : β),
      (m.map Prod.fst).Nodup → ((updateOrInsert m k v).map Prod.fst).Nodup
  | [], k, v, _ => by simp [updateOrInsert]
  | (k0, v0) :: rest, k, v, h => by
    simp only [List.map_cons, List.nodup_cons] at h
    simp only [updateOrInsert]
    by_cases h0 : k0 = k
    · rw [if_pos h0]
      simp only [List.map_cons, List.nodup_cons]
      exact h
    · rw [if_neg h0]
      simp only [List.map_cons, List.nodup_cons]
      refine ⟨?_, nodup_keys_updateOrInsert rest k v h.2⟩
      intro hmem
      rcases (mem_keys_updateOrInsert rest k k0 v).1 hmem with hh | hh
      · exact h0 hh
      · exact h.1 hh

theorem countP_le_one_of_nodup_keys {κ β : Type} [DecidableEq κ] :
    ∀ (m : List (κ × β)), (m.map Prod.fst).Nodup →
      ∀ p : κ, m.countP (fun e => decide (e.1 = p)) ≤ 1
  | [], _, p => by simp
  | (k0, v0) :: rest, h, p => by
    simp only [List.map_cons, List.nodup_cons] at h
    by_cases hk : k0 = p
    · subst hk
      have hzero : rest.countP (fun e => decide (e.1 = k0)) = 0 := by
        rw [List.countP_eq_zero]
        intro e he
        simp only [decide_eq_true_eq]
        intro hep
        have hm : e.1 ∈ rest.map Prod.fst := List.mem_map_of_mem Prod.fst he
        rw [hep] at hm
        exact h.1 hm
      simp [List.countP_cons, hzero]
    · have h1 := countP_le_one_of_nodup_keys rest h.2 p
      simp only [List.countP_cons]
      have hfalse : (decide (((k0, v0) : κ × β).1 = p)) = false := by simp [hk]
      rw [hfalse]
      simpa using h1

/-- The table that replaying `m[k] = v` over a list of accepted
`(path, digest)` pairs produces; the parser's `digestList` is exactly
this table of its accepted trace. -/
def buildMap (entries : List (List Nat × List Nat)) : List (List Nat × List Nat) :=
  entries.foldl (fun m e => updateOrInsert m e.1 e.2) []

theorem buildMap_append_one (es : List (List Nat × List Nat)) (e : List Nat × List Nat) :
    buildMap (es ++ [e]) = updateOrInsert (buildMap es) e.1 e.2 := by
  unfold buildMap
  rw [List.foldl_append]
  rfl

theorem buildMap_lookup (p : List Nat) :
    ∀ es : List (List Nat × List Nat),
      assocLookup (buildMap es) p
        = (es.reverse.find? (fun e => decide (e.1 = p))).map Prod.snd := by
  intro es
  induction es using List.reverseRecOn with
  | nil => rfl
  | append_singleton es e ih =>
    rw [buildMap_append_one, assocLookup_updateOrInsert, List.reverse_append]
    simp only [List.reverse_singleton, List.singleton_append]
    by_cases h : e.1 = p
    · subst h
      simp [List.find?]
    · rw [if_neg (fun hh => h hh.symm)]
      simp only [List.find?]
      rw [show (decide (e.1 = p)) = false by simp [h]]
      exact ih

theorem buildMap_nodup_keys :
    ∀ es : List (List Nat × List Nat), ((buildMap es).map Prod.fst).Nodup := by
  intro es
  induction es using List.reverseRecOn with
  | nil => simp [buildMap]
  | append_singleton es e ih =>
    rw [buildMap_append_one]
    exact nodup_keys_updateOrInsert _ _ _ ih

theorem sumStep_digestList_eq (norm : Bool) (dir : List Nat) (st : SumState)
    (l : List Nat) (h : st.digestList = buildMap st.accepted) :
    (sumStep norm dir st l).digestList = buildMap (sumStep norm dir st l).accepted := by
  unfold sumStep
  simp only []
  split
  · exact h
  · split
    · simp only [buildMap_append_one, h]

    · split
      · exact h
      · exact h

theorem sumLoop_digestList_eq (norm : Bool) (dir : List Nat) :
    ∀ (ls : List (List Nat)) (st : SumState),
      st.digestList = buildMap st.accepted →
      (sumLoop norm dir st ls).digestList = buildMap (sumLoop norm dir st ls).accepted
  | [], st, h => h
  | l :: ls, st, h => by
    simp only [sumLoop]
    have h2 := sumStep_digestList_eq norm dir st l h
    split
    · exact h2
    · exact sumLoop_digestList_eq norm dir ls _ h2

theorem sumStep_lineNumber (norm : Bool) (dir : List Nat) (st : SumState) (l : List Nat) :
    (sumStep norm dir st l).lineNumber = st.lineNumber + 1 := by
  unfold sumStep
  simp only []
  split
  · rfl
  · split
    · rfl
    · split
      · rfl
      · rfl

theorem sumStep_no_new_fail (norm : Bool) (dir : List Nat) (st : SumState) (l : List Nat)
    (hn : 1 ≤ st.lineNumber) (hf : st.failed = false) :
    (sumStep norm dir st l).failed = false := by
  unfold sumStep
  simp only []
  split
  · exact hf
  · split
    · rfl
    · split
      · exact hf
      · rename_i hlt
        omega

theorem sumLoop_no_fail (norm : Bool) (dir : List Nat) :
    ∀ (ls : List (List Nat)) (st : SumState),
      1 ≤ st.lineNumber → st.failed = false →
      (sumLoop norm dir st ls).failed = false
  | [], st, _, hf => hf
  | l :: ls, st, hn, hf => by
    simp only [sumLoop]
    have h2 : (sumStep norm dir st l).failed = false := sumStep_no_new_fail norm dir st l hn hf
    rw [if_neg (by rw [h2]; exact Bool.false_ne_true)]
    exact sumLoop_no_fail norm dir ls _ (by rw [sumStep_lineNumber]; omega) h2

theorem sumStep_failed_inv (norm : Bool) (dir : List Nat) (st : SumState) (l : List Nat)
    (hf0 : st.failed = false) (hf : (sumStep norm dir st l).failed = true) :
    (sumStep norm dir st l).accepted = st.accepted
    ∧ (sumStep norm dir st l).digestList = st.digestList
    ∧ (sumStep norm dir st l).skippedLines = st.skippedLines := by
  unfold sumStep at hf ⊢
  simp only [] at hf ⊢
  revert hf
  split
  · intro _
    exact ⟨rfl, rfl, rfl⟩
  · split
    · intro hf
      simp at hf
    · split
      · intro hf
        simp only [hf0] at hf
        exact absurd hf (by decide)
      · intro _
        exact ⟨rfl, rfl, rfl⟩

theorem sumLoop_failed_from_zero (norm : Bool) (dir : List Nat) :
    ∀ (ls : List (List Nat)) (st : SumState),
      st.failed = false → st.lineNumber = 0 →
      (sumLoop norm dir st ls).failed = true →
      (sumLoop norm dir st ls).accepted = st.accepted
  | [], st, hf, _, hfail => by
    simp only [sumLoop] at hfail
    rw [hf] at hfail
    exact absurd hfail Bool.false_ne_true
  | l :: ls, st, hf, hn, hfail => by
    simp only [sumLoop] at hfail ⊢
    by_cases h2 : (sumStep norm dir st l).failed = true
    · rw [if_pos h2] at hfail ⊢
      exact (sumStep_failed_inv norm dir st l hf h2).1
    · rw [if_neg h2] at hfail ⊢
      have h3 : (sumStep norm dir st l).failed = false := by
        simpa using h2
      have := sumLoop_no_fail norm dir ls (sumStep norm dir st l)
        (by rw [sumStep_lineNumber]; omega) h3
      rw [this] at hfail
      exact absurd hfail Bool.false_ne_true

/-- C9: last wins. For every checksum file, the parsed table holds, for
each path, at most one entry, and looking the path up yields exactly the
digest of the last accepted line that produced that path (`none` when no
accepted line did). -/
theorem manifest_duplicate_last_wins (norm : Bool) (dir : List Nat)
    (lines : List (List Nat)) (p : List Nat) :
    assocLookup (ParseSumFile norm dir lines).digestList p
      = ((ParseSumFile norm dir lines).accepted.reverse.find?
          (fun e => decide (e.1 = p))).map Prod.snd
    ∧ (ParseSumFile norm dir lines).digestList.countP (fun e => decide (e.1 = p)) ≤ 1 := by
  unfold ParseSumFile
  simp only []
  set st := sumLoop norm dir initSumState lines with hst
  by_cases hfail : st.failed = true
  · rw [if_pos hfail]
    have hacc : st.accepted = [] :=
      sumLoop_failed_from_zero norm dir lines initSumState rfl rfl hfail
    simp [hacc, assocLookup]
  · have hfail2 : st.failed = false := by
      simpa using hfail
    rw [if_neg (by rw [hfail2]; exact Bool.false_ne_true)]
    have hmap : st.digestList = buildMap st.accepted :=
      sumLoop_digestList_eq norm dir lines initSumState rfl
    have hgoal : assocLookup st.digestList p
        = (st.accepted.reverse.find? (fun e => decide (e.1 = p))).map Prod.snd
        ∧ st.digestList.countP (fun e => decide (e.1 = p)) ≤ 1 := by
      rw [hmap]
      exact ⟨buildMap_lookup p st.accepted,
        countP_le_one_of_nodup_keys _ (buildMap_nodup_keys st.accepted) p⟩
    split
    · exact hgoal
    · exact hgoal

theorem IsHashSize_ne_zero {n : Nat} (h : IsHashSize n = true) : n ≠ 0 := by
  intro h0
  subst h0
  exact absurd h (by decide)

theorem ParseSumLine_length {dl : Nat} {line name digest : List Nat}
    (h : ParseSumLine dl line = some (name, digest)) :
    (dl ≠ 0 ∧ digest.length = dl) ∨ (dl = 0 ∧ IsHashSize digest.length = true) := by
  unfold ParseSumLine at h
  simp only [] at h
  repeat' split at h
  all_goals first
    | (rw [Option.some.injEq, Prod.mk.injEq] at h
       rename_i hcond
       rw [← h.2]
       exact hcond)
    | exact absurd h (by simp)

/-- The digest-length invariant of the parse loop: every accepted entry's
digest has the currently enforced length, and no line has been accepted
while the length is still unset. -/
def SumLenInv (st : SumState) : Prop :=
  (∀ e ∈ st.accepted, e.2.length = st.digestLen) ∧ (st.digestLen = 0 → st.accepted = [])

theorem sumStep_len_inv (norm : Bool) (dir : List Nat) (st : SumState) (l : List Nat)
    (h : SumLenInv st) : SumLenInv (sumStep norm dir st l) := by
  unfold sumStep
  simp only []
  split
  · exact h
  · split
    · rename_i name0 digest heq
      constructor
      · intro e he
        rcases List.mem_append.1 he with h1 | h1
        · rcases ParseSumLine_length heq with ⟨hne, hlen⟩ | ⟨h0, _⟩
          · rw [h.1 e h1, ← hlen]
          · rw [h.2 h0] at h1
            simp at h1
        · simp only [List.mem_singleton] at h1
          subst h1
          rfl
      · intro h0
        rcases ParseSumLine_length heq with ⟨hne, hlen⟩ | ⟨_, hsz⟩
        · rw [hlen] at h0
          exact absurd h0 hne
        · exact absurd h0 (IsHashSize_ne_zero hsz)
    · split
      · exact h
      · exact h

theorem sumLoop_len_inv (norm : Bool) (dir : List Nat) :
    ∀ (ls : List (List Nat)) (st : SumState), SumLenInv st → SumLenInv (sumLoop norm dir st ls)
  | [], _, h => h
  | l :: ls, st, h => by
    simp only [sumLoop]
    have h2 := sumStep_len_inv norm dir st l h
    split
    · exact h2
    · exact sumLoop_len_inv norm dir ls _ h2

theorem sumStep_skipped_mono (norm : Bool) (dir : List Nat) (st : SumState) (l : List Nat) :
    ∃ suff, (sumStep norm dir st l).skippedLines = st.skippedLines ++ suff := by
  unfold sumStep
  simp only []
  split
  · exact ⟨[], by simp⟩
  · split
    · exact ⟨[], by simp⟩
    · split
      · exact ⟨[st.lineNumber + 1], rfl⟩
      · exact ⟨[], by simp⟩

theorem sumLoop_skipped_mono (norm : Bool) (dir : List Nat) :
    ∀ (ls : List (List Nat)) (st : SumState),
      ∃ suff, (sumLoop norm dir st ls).skippedLines = st.skippedLines ++ suff
  | [], st => ⟨[], by simp [sumLoop]⟩
  | l :: ls, st => by
    simp only [sumLoop]
    obtain ⟨s1, h1⟩ := sumStep_skipped_mono norm dir st l
    split
    · exact ⟨s1, h1⟩
    · obtain ⟨s2, h2⟩ := sumLoop_skipped_mono norm dir ls (sumStep norm dir st l)
      exact ⟨s1 ++ s2, by rw [h2, h1, List.append_assoc]⟩

/-- C4: (i) all accepted lines of a checksum file carry digests of one
length — the first accepted line fixes it; (ii) a line other than line 1
that fails to parse is skipped: its 1-based number is appended to
`skippedLines`, it changes nothing else, parsing continues with the
remaining lines, and its number reaches the final skipped list; (iii) a
non-empty line 1 that fails to parse makes the whole file fail to parse
as a checksum file, with an empty table. -/
theorem checksum_line_policy (norm : Bool) (dir : List Nat) :
    (∀ (lines : List (List Nat)), ∀ e ∈ (ParseSumFile norm dir lines).accepted,
        ∀ e2 ∈ (ParseSumFile norm dir lines).accepted, e.2.length = e2.2.length)
    ∧ (∀ (st : SumState) (l : List Nat) (ls : List (List Nat)),
        st.failed = false → 1 ≤ st.lineNumber →
        l.takeWhile (· ≠ 0) ≠ [] →
        ParseSumLine st.digestLen (l.takeWhile (· ≠ 0)) = none →
        sumLoop norm dir st (l :: ls)
            = sumLoop norm dir
                { st with
                  lineNumber := st.lineNumber + 1
                  skippedLines := st.skippedLines ++ [st.lineNumber + 1] } ls
          ∧ (st.lineNumber + 1) ∈ (sumLoop norm dir st (l :: ls)).skippedLines)
    ∧ (∀ (l : List Nat) (ls : List (List Nat)),
        l.takeWhile (· ≠ 0) ≠ [] →
        ParseSumLine 0 (l.takeWhile (· ≠ 0)) = none →
        (ParseSumFile norm dir (l :: ls)).ok = false
          ∧ (ParseSumFile norm dir (l :: ls)).digestList = []) := by
  refine ⟨?_, ?_, ?_⟩
  · intro lines e he e2 he2
    have hinv : SumLenInv (sumLoop norm dir initSumState lines) :=
      sumLoop_len_inv norm dir lines initSumState ⟨by simp [initSumState], fun _ => rfl⟩
    have hacc : (ParseSumFile norm dir lines).accepted
        = (sumLoop norm dir initSumState lines).accepted := by
      unfold ParseSumFile
      simp only []
      split
      · rfl
      · split
        · rfl
        · rfl
    rw [hacc] at he he2
    rw [hinv.1 e he, hinv.1 e2 he2]
  · intro st l ls hf hn hne hparse
    have hstep : sumStep norm dir st l
        = { st with
            lineNumber := st.lineNumber + 1
            skippedLines := st.skippedLines ++ [st.lineNumber + 1] } := by
      unfold sumStep
      simp only []
      rw [if_neg hne, hparse]
      rw [if_pos (by omega)]
    have hf2 : (sumStep norm dir st l).failed = false := by
      rw [hstep]
      exact hf
    have heq : sumLoop norm dir st (l :: ls)
        = sumLoop norm dir
            { st with
              lineNumber := st.lineNumber + 1
              skippedLines := st.skippedLines ++ [st.lineNumber + 1] } ls := by
      simp only [sumLoop]
      rw [if_neg (by rw [hf2]; exact Bool.false_ne_true), hstep]
    refine ⟨heq, ?_⟩
    rw [heq]
    obtain ⟨suff, hsuff⟩ := sumLoop_skipped_mono norm dir ls
      { st with
        lineNumber := st.lineNumber + 1
        skippedLines := st.skippedLines ++ [st.lineNumber + 1] }
    rw [hsuff]
    simp
  · intro l ls hne hparse
    have hstep : sumStep norm dir initSumState l
        = { initSumState with lineNumber := 1, failed := true } := by
      have hparse2 : ParseSumLine initSumState.digestLen (l.takeWhile (· ≠ 0)) = none := hparse
      unfold sumStep
      simp only []
      rw [if_neg hne, hparse2]
      rfl
    unfold ParseSumFile
    simp only [sumLoop]
    rw [hstep]
    rw [if_pos rfl, if_pos rfl]
    exact ⟨rfl, rfl⟩

/-- Witness for C4 at concrete inputs: from the state after one accepted
16-byte line, the spaceless line `B` (line 2) is skipped and recorded
while parsing continues, and the one-line file `A` fails at line 1 with
an empty table. -/
theorem checksum_line_policy_witness :
    (sumLoop false [] ⟨16, [([97], List.replicate 16 0)], [], 1, false,
          [([97], List.replicate 16 0)]⟩ [[66]]
        = sumLoop false [] ⟨16, [([97], List.replicate 16 0)], [2], 2, false,
            [([97], List.replicate 16 0)]⟩ []
      ∧ 2 ∈ (sumLoop false [] ⟨16, [([97], List.replicate 16 0)], [], 1, false,
          [([97], List.replicate 16 0)]⟩ [[66]]).skippedLines)
    ∧ ((ParseSumFile false [] [[65]]).ok = false
      ∧ (ParseSumFile false [] [[65]]).digestList = []) :=
  ⟨(checksum_line_policy false []).2.1
      ⟨16, [([97], List.replicate 16 0)], [], 1, false, [([97], List.replicate 16 0)]⟩
      [66] [] rfl (by decide) (by decide) (by decide),
   (checksum_line_policy false []).2.2 [65] [] (by decide) (by decide)⟩

/-!
The result-file parser `ParseResultLine`/`ParseResultFile`
(DirHash.cpp:2449-2592), `GetFileName` (DirHash.cpp:329) and the
pre-hashing control flow of `_tmain` (DirHash.cpp:3179-3462).
-/

/-- One result line (DirHash.cpp:2449): either a bare hex digest of a
supported size, or the formatted
`<AlgoId> hash of "<target>" (<dd> bytes) = <hex>` form. -/
inductive ResultLine where
  | raw (digest : List Nat)
  | named (targetName : List Nat) (hashName : List Nat) (digest : List Nat)
deriving DecidableEq

/-- Model of `swscanf(ptr, L"%2d", &hashLen)` on the two-character size
field (the caller has already checked the field length): `%d` skips
leading whitespace, takes an optional sign, and succeeds when at least
one digit follows, stopping at the first non-digit. -/
def swscanf2d (cs : List Nat) : Option Int :=
  match cs with
  | [a, b] =>
    if 48 ≤ a ∧ a ≤ 57 then
      if 48 ≤ b ∧ b ≤ 57 then some (((a : Int) - 48) * 10 + ((b : Int) - 48))
      else some ((a : Int) - 48)
    else if a = 32 ∨ a = 9 ∨ a = 10 ∨ a = 11 ∨ a = 12 ∨ a = 13 then
      if 48 ≤ b ∧ b ≤ 57 then some ((b : Int) - 48) else none
    else if a = 43 then
      if 48 ≤ b ∧ b ≤ 57 then some ((b : Int) - 48) else none
    else if a = 45 then
      if 48 ≤ b ∧ b ≤ 57 then some (-((b : Int) - 48)) else none
    else none
  | _ => none

/-- Model of `ParseResultLine` (DirHash.cpp:2449): lines shorter than 32
characters fail; a line that decodes entirely as hex succeeds only as a
raw digest of supported size; otherwise the first token must be a known
algorithm id and the rest must follow the
`hash of "<target>" (<dd> bytes) = <hex>` grammar, with `<dd>` equal to
the algorithm's digest size and the hex field exactly twice that long.
The stored hash name is the engine's canonical `GetID` spelling. -/
def ParseResultLine (line0 : List Nat) : Option ResultLine :=
  let line := line0.takeWhile (· ≠ 0)
  if line.length < 32 then none
  else
    match FromHex line with
    | (true, digestValue) =>
      if IsHashSize digestValue.length then some (.raw digestValue) else none
    | (false, _) =>
      match line.findIdx? (· = 32) with
      | none => none
      | some i =>
        match GetHash (line.take i) with
        | none => none
        | some h =>
          let rest := line.drop (i + 1)
          if 32 < rest.length ∧ rest.take 9 = [104, 97, 115, 104, 32, 111, 102, 32, 34] then
            let r2 := rest.drop 9
            match r2.findIdx? (· = 34) with
            | none => none
            | some j =>
              let targetName := r2.take j
              if getChar r2 (j + 1) = 32 ∧ getChar r2 (j + 2) = 40 then
                let r3 := r2.drop (j + 3)
                if 32 < r3.length then
                  match r3.findIdx? (· = 32) with
                  | none => none
                  | some k =>
                    if k = 2 then
                      match swscanf2d (r3.take 2) with
                      | none => none
                      | some hashLen =>
                        if hashLen = (h.algo.hashSize : Int) then
                          let r4 := r3.drop (k + 1)
                          if 32 < r4.length
                              ∧ r4.take 9 = [98, 121, 116, 101, 115, 41, 32, 61, 32] then
                            let r5 := r4.drop 9
                            if (r5.length : Int) = 2 * hashLen then
                              match FromHex r5 with
                              | (true, digestValue) =>
                                some (.named targetName h.algo.idStr digestValue)
                              | (false, _) => none
                            else none
                          else none
                        else none
                    else none
                else none
              else none
          else none

/-- The loop state of `ParseResultFile` (DirHash.cpp:2528): the two
tables, plus `targetName` and `hashName`, which the source declares
outside the loop — a raw line therefore sees the values left by the
previous line, and is filed under the previous line's target name when
that name is non-empty. -/
structure ResultParseState where
  pathDigestList : List (List Nat × (List Nat × List Nat))
  rawDigestList : List (Nat × List Nat)
  targetName : List Nat
  hashName : List Nat
  failed : Bool

/-- One iteration of the `ParseResultFile` loop (DirHash.cpp:2545-2572):
empty lines are skipped; a parsed line is filed into `pathDigestList`
when the (possibly stale) target and hash names are both non-empty and
into `rawDigestList` (keyed by digest size) otherwise; any failing line
sets `bFailed` (the loop then breaks). -/
def resultStep (st : ResultParseState) (rawLine : List Nat) : ResultParseState :=
  let line := rawLine.takeWhile (· ≠ 0)
  if line = [] then st
  else
    match ParseResultLine rawLine with
    | some r =>
      let tn := match r with | .named t _ _ => t | .raw _ => st.targetName
      let hn := match r with | .named _ hname _ => hname | .raw _ => st.hashName
      let dg := match r with | .named _ _ d => d | .raw d => d
      if tn ≠ [] ∧ hn ≠ [] then
        { st with
          pathDigestList := updateOrInsert st.pathDigestList tn (hn, dg)
          targetName := tn
          hashName := hn }
      else
        { st with
          rawDigestList := updateOrInsert st.rawDigestList dg.length dg
          targetName := tn
          hashName := hn }
    | none => { st with targetName := [], hashName := [], failed := true }

def resultLoop : ResultParseState → List (List Nat) → ResultParseState
  | st, [] => st
  | st, l :: ls =>
    let st2 := resultStep st l
    if st2.failed then st2 else resultLoop st2 ls

structure ResultParseOutcome where
  ok : Bool
  pathDigestList : List (List Nat × (List Nat × List Nat))
  rawDigestList : List (Nat × List Nat)

/-- Model of `ParseResultFile` (DirHash.cpp:2528): a failing line clears
both tables and fails the call; a file yielding two empty tables also
fails. -/
def ParseResultFile (lines : List (List Nat)) : ResultParseOutcome :=
  let st := resultLoop ⟨[], [], [], [], false⟩ lines
  if st.failed then ⟨false, [], []⟩
  else if st.pathDigestList = [] ∧ st.rawDigestList = [] then
    ⟨false, st.pathDigestList, st.rawDigestList⟩
  else ⟨true, st.pathDigestList, st.rawDigestList⟩

def isPathSep (c : Nat) : Bool := c = 92 || c = 47

/-- The backward scan of `GetFileName` (DirHash.cpp:339): step towards
the start of the string, stopping at the first separator; position 0 is
never examined by the loop itself. -/
def lastSepScan (s : List Nat) : Nat → Nat
  | 0 => 0
  | i + 1 => if isPathSep (getChar s (i + 1)) then i + 1 else lastSepScan s i

/-- Model of `GetFileName` (DirHash.cpp:329): the leaf of a path, with a
single trailing separator ignored; a string of length at most 1 is
returned whole. -/
def GetFileName (szPath : List Nat) : List Nat :=
  if szPath.length ≤ 1 then szPath
  else
    let i0 := szPath.length - 1
    let i1 := if isPathSep (getChar szPath i0) then i0 - 1 else i0
    let p := lastSepScan szPath i1
    if isPathSep (getChar szPath p) then szPath.drop (p + 1) else szPath.drop p

/-- `std::wstring::operator<`: lexicographic comparison by code unit,
shorter prefix first. -/
def wstrLt : List Nat → List Nat → Bool
  | [], [] => false
  | [], _ :: _ => true
  | _ :: _, [] => false
  | a :: as, b :: bs => if a < b then true else if b < a then false else wstrLt as bs

/-- `std::map::begin()` of a wide-string-keyed map: the entry with the
least key under `std::wstring::operator<` (the embedding's list holds
unique keys in insertion order, so the least entry is computed by a
fold). -/
def mapBegin {β : Type} (m : List (List Nat × β)) : Option (List Nat × β) :=
  m.foldl (fun acc e =>
    match acc with
    | none => some e
    | some a => if wstrLt e.1 a.1 then some e else some a) none

/-- The post-argument-parsing state of `_tmain` that the pre-hash checks
consult. Environmental facts are inputs: whether the target path
resolves and is a file (`GetPathType`, DirHash.cpp:3282), whether it is a
reparse point, and the verification file's lines (`none` when the file
cannot be opened, which makes both parsers fail). Engine validity
(`ValidateHashesVector`) depends on the CNG back end and is modelled as
holding. -/
structure TmainInput where
  hashAlgoToUse : List Nat
  bVerifyMode : Bool
  bSumMode : Bool
  bForceSumMode : Bool
  bBenchmarkOp : Bool
  bNoFollow : Bool
  bIncludeLastDir : Bool
  argv1 : List Nat
  pathExists : Bool
  bIsFile : Bool
  inputIsReparse : Bool
  verifLines : Option (List (List Nat))

def replaceSlashes (s : List Nat) : List Nat := s.map (fun c => if c = 47 then 92 else c)

/-- DirHash.cpp:3277-3279: remove one trailing backslash from the
normalised input argument. -/
def stripTrailingBackslash (s : List Nat) : List Nat :=
  if getChar s (s.length - 1) = 92 then s.take (s.length - 1) else s

/-- The normalised `inputArg` of `_tmain` (DirHash.cpp:3273-3280). -/
def tmainInputArg (inp : TmainInput) : List Nat :=
  stripTrailingBackslash (replaceSlashes inp.argv1)

/-- DirHash.cpp:3316-3322: with `-includeLastDir`, keep the input path up
to and including its last backslash; clear it when there is none. -/
def inputDirIncludeLastDir (s : List Nat) : List Nat :=
  match s.reverse.findIdx? (· = 92) with
  | some r => s.take (s.length - r)
  | none => []

/-- `g_inputDirPath` as `_tmain` sets it before parsing the verification
file (DirHash.cpp:3308-3327): only for a directory target in sum or
verify mode; ordinarily the input path plus a trailing backslash. -/
def tmainInputDirPath (inp : TmainInput) : List Nat :=
  let bSumMode := inp.bSumMode || (!inp.bVerifyMode && inp.bForceSumMode)
  if !inp.bIsFile ∧ (bSumMode = true ∨ inp.bVerifyMode = true) then
    if inp.bIncludeLastDir then inputDirIncludeLastDir (tmainInputArg inp)
    else tmainInputArg inp ++ [92]
  else []

/-- `digestsList.begin()->second.m_digest.size()` (DirHash.cpp:3336): the
digest length of the map's first entry (any entry would do — C4 proves
all accepted digests share one length). -/
def sumFileHashLen (r : SumParseResult) : Nat :=
  match mapBegin r.digestList with
  | some e => e.2.length
  | none => 0

/-- The pre-hashing control flow of `_tmain` (DirHash.cpp:3179-3462) from
the point the arguments are parsed. The returned pair is the exit code
and whether the hashing phase (`HashDirectory`/`HashFile`,
DirHash.cpp:3429-3462) was reached: every early return yields `false`,
and a run that reaches hashing is abstracted to `(0, true)` — the claims
settled on this model concern only the pre-hash checks. Output-file
opening (DirHash.cpp:3206-3263) performs no early return and is
omitted. -/
def tmainRun (inp : TmainInput) : Int × Bool :=
  match GetHashes inp.hashAlgoToUse with
  | [] => (1, false)
  | h0 :: hrest =>
    if inp.bVerifyMode = true ∧ 1 < (h0 :: hrest).length then (-10, false)
    else if inp.bBenchmarkOp then (0, false)
    else if !inp.pathExists then (-2, false)
    else if inp.bNoFollow = true ∧ inp.inputIsReparse = true then (-9, false)
    else if inp.bVerifyMode then
      match inp.verifLines with
      | none => (-3, false)
      | some lines =>
        let r := ParseSumFile true (tmainInputDirPath inp) lines
        if r.ok then
          if sumFileHashLen r ≠ h0.algo.hashSize then (-4, false)
          else if inp.bIsFile then
            if (assocLookup r.digestList (tmainInputArg inp)).isSome then (0, true)
            else (-5, false)
          else (0, true)
        else
          let rr := ParseResultFile lines
          if rr.ok then
            let entryName := GetFileName inp.argv1
            let verifyDigest :=
              match assocLookup rr.pathDigestList entryName with
              | some e => some e.2
              | none => assocLookup rr.rawDigestList h0.algo.hashSize
            match verifyDigest with
            | none => (-8, false)
            | some d => if d.length ≠ h0.algo.hashSize then (-4, false) else (0, true)
          else (-3, false)
    else (0, true)

/-- C7: a specifier that parses to two or more algorithms is rejected in
verify mode with the dedicated fatal code -10 before any hashing, and in
every other mode it is accepted: provided the mode-independent
environmental guards do not fire (no benchmark request, the target path
exists, no refused reparse point — conditions unrelated to the
algorithm count), the run proceeds to the hashing phase. -/
theorem verify_multi_algo_policy (inp : TmainInput)
    (hm : 1 < (GetHashes inp.hashAlgoToUse).length) :
    (inp.bVerifyMode = true → tmainRun inp = (-10, false)) ∧
    (inp.bVerifyMode = false → inp.bBenchmarkOp = false → inp.pathExists = true →
      ¬(inp.bNoFollow = true ∧ inp.inputIsReparse = true) →
      tmainRun inp = (0, true)) := by
  rcases hp : GetHashes inp.hashAlgoToUse with _ | ⟨h0, hrest⟩
  · rw [hp] at hm
    simp at hm
  · rw [hp] at hm
    constructor
    · intro hv
      unfold tmainRun
      rw [hp]
      simp only []
      rw [if_pos ⟨hv, hm⟩]
    · intro hv hb hex hnr
      unfold tmainRun
      rw [hp]
      simp only []
      rw [if_neg (by simp [hv]), if_neg (by simp [hb]), if_neg (by simp [hex]),
        if_neg hnr, if_neg (by simp [hv])]

/-- Witness for C7 at concrete inputs: the specifier `SHA1,MD5` is
rejected in verify mode and reaches hashing in normal mode. -/
theorem verify_multi_algo_policy_witness :
    tmainRun ⟨[83, 72, 65, 49, 44, 77, 68, 53], true, false, false, false, false, false,
        [100], true, false, false, some []⟩ = (-10, false) ∧
    tmainRun ⟨[83, 72, 65, 49, 44, 77, 68, 53], false, false, false, false, false, false,
        [100], true, false, false, some []⟩ = (0, true) :=
  ⟨(verify_multi_algo_policy
      ⟨[83, 72, 65, 49, 44, 77, 68, 53], true, false, false, false, false, false,
        [100], true, false, false, some []⟩ (by decide)).1 rfl,
   (verify_multi_algo_policy
      ⟨[83, 72, 65, 49, 44, 77, 68, 53], false, false, false, false, false, false,
        [100], true, false, false, some []⟩ (by decide)).2 rfl rfl rfl (by decide)⟩

/-- C5: in verify mode, when the checksum file parses but its digest
length differs from the selected algorithm's digest size, `_tmain`
returns the dedicated fatal code -4 without reaching the hashing phase —
no target file is opened or read for hashing. -/
theorem verify_hash_length_guard (inp : TmainInput) (h0 : HashEngine)
    (lines : List (List Nat))
    (hv : inp.bVerifyMode = true)
    (hh : GetHashes inp.hashAlgoToUse = [h0])
    (hb : inp.bBenchmarkOp = false)
    (hex : inp.pathExists = true)
    (hnr : ¬(inp.bNoFollow = true ∧ inp.inputIsReparse = true))
    (hlines : inp.verifLines = some lines)
    (hok : (ParseSumFile true (tmainInputDirPath inp) lines).ok = true)
    (hlen : sumFileHashLen (ParseSumFile true (tmainInputDirPath inp) lines)
      ≠ h0.algo.hashSize) :
    tmainRun inp = (-4, false) := by
  unfold tmainRun
  rw [hh]
  simp only []
  rw [if_neg (by simp), if_neg (by simp [hb]), if_neg (by simp [hex]), if_neg hnr,
    if_pos (by simp [hv]), hlines]
  simp only []
  rw [if_pos hok, if_pos hlen]

/-- Witness for C5 at a concrete input: algorithm `SHA1` (20 bytes)
verifying a checksum file whose single line carries a 16-byte digest for
path `ab` under directory target `d`. -/
theorem verify_hash_length_guard_witness :
    tmainRun ⟨[83, 72, 65, 49], true, false, false, false, false, false,
        [100], true, false, false,
        some [List.replicate 32 48 ++ [32, 32, 97, 98]]⟩ = (-4, false) :=
  verify_hash_length_guard
    ⟨[83, 72, 65, 49], true, false, false, false, false, false,
      [100], true, false, false, some [List.replicate 32 48 ++ [32, 32, 97, 98]]⟩
    ⟨HashAlgo.SHA1, []⟩ [List.replicate 32 48 ++ [32, 32, 97, 98]]
    rfl (by decide) rfl rfl (by decide) rfl (by decide) (by decide)

end DirHash
